import Mathlib

/-!
Verification of the fate-analysis pipeline in `cospar/tool/_map.py`.

The Python module computes per-cell fate probabilities, a coupling matrix
between fate clusters, a two-cluster fate bias, and an iteratively built
fate hierarchy.  The functions below are a shallow embedding of that code:

* floating-point values are modelled as exact elements of a linear ordered
  ring (any model of the reals; the fate-bias part, which divides, uses `ℚ`);
* numpy arrays are lists (`List α`) and lists of rows (`List (List α)`);
* Python dictionaries with consecutive integer keys (`node_groups`) are
  lists indexed by the key, other dictionaries are association lists;
* `raise ValueError` / Python runtime errors are `Except` errors;
* the externally computed quantities (`get_normalized_covariance` via
  `fate_coupling`, `analyze_selected_fates`, `compute_fate_probability_map`,
  all defined outside this file's source) are oracle parameters.
-/

namespace Cospar

variable {α : Type} [LinearOrderedRing α]

/-- First index in `[0, n)` attaining the maximum of `f`, mirroring `np.argmax`,
which returns the first occurrence of the maximum; junk value `0` for `n = 0`. -/
def argmaxIdx (f : Nat → α) : Nat → Nat
  | 0 => 0
  | n + 1 => if f (argmaxIdx f n) < f n then n else argmaxIdx f n

/-- Maximum of `f` over `[0, n)` (`np.max` along an axis); junk for `n = 0`. -/
def maxVal (f : Nat → α) (n : Nat) : α := f (argmaxIdx f n)

theorem argmaxIdx_lt (f : Nat → α) (n : Nat) (hn : 0 < n) : argmaxIdx f n < n := by
  induction n with
  | zero => omega
  | succ m ih =>
    by_cases hc : f (argmaxIdx f m) < f m
    · simp only [argmaxIdx, if_pos hc]
      omega
    · simp only [argmaxIdx, if_neg hc]
      rcases Nat.eq_zero_or_pos m with hm | hm
      · subst hm; simp [argmaxIdx]
      · exact Nat.lt_succ_of_lt (ih hm)

theorem le_argmaxIdx (f : Nat → α) (n i : Nat) (hi : i < n) : f i ≤ f (argmaxIdx f n) := by
  induction n with
  | zero => omega
  | succ m ih =>
    by_cases hc : f (argmaxIdx f m) < f m
    · simp only [argmaxIdx, if_pos hc]
      rcases Nat.lt_succ_iff_lt_or_eq.mp hi with h | h
      · exact le_trans (ih h) hc.le
      · subst h; exact le_refl _
    · simp only [argmaxIdx, if_neg hc]
      rcases Nat.lt_succ_iff_lt_or_eq.mp hi with h | h
      · exact ih h
      · subst h; exact not_lt.mp hc

theorem argmaxIdx_first (f : Nat → α) (n i : Nat) (hi : i < argmaxIdx f n) :
    f i < f (argmaxIdx f n) := by
  induction n with
  | zero => simp [argmaxIdx] at hi
  | succ m ih =>
    by_cases hc : f (argmaxIdx f m) < f m
    · simp only [argmaxIdx, if_pos hc] at hi ⊢
      exact lt_of_le_of_lt (le_argmaxIdx f m i hi) hc
    · simp only [argmaxIdx, if_neg hc] at hi ⊢
      exact ih hi

/-- Running maximum via `foldl max`, seeded with the first element
(`np.max` of a nonempty concrete array); junk `0` for the empty list. -/
def listMax (l : List α) : α := l.foldl max (l.headD 0)

/-- Running minimum via `foldl min`, seeded with the first element
(`np.min` of a nonempty concrete array); junk `0` for the empty list. -/
def listMin (l : List α) : α := l.foldl min (l.headD 0)

theorem foldl_min_le_init (l : List α) (d : α) : l.foldl min d ≤ d := by
  induction l generalizing d with
  | nil => exact le_refl d
  | cons a t ih => exact le_trans (ih (min d a)) (min_le_left d a)

theorem foldl_min_le_mem (l : List α) : ∀ (d x : α), x ∈ l → l.foldl min d ≤ x := by
  induction l with
  | nil => intro d x hx; cases hx
  | cons a t ih =>
    intro d x hx
    rcases List.mem_cons.mp hx with h | h
    · subst h
      exact le_trans (foldl_min_le_init t (min d x)) (min_le_right d x)
    · exact ih (min d a) x h

theorem init_le_foldl_max (l : List α) (d : α) : d ≤ l.foldl max d := by
  induction l generalizing d with
  | nil => exact le_refl d
  | cons a t ih => exact le_trans (le_max_left d a) (ih (max d a))

theorem mem_le_foldl_max (l : List α) : ∀ (d x : α), x ∈ l → x ≤ l.foldl max d := by
  induction l with
  | nil => intro d x hx; cases hx
  | cons a t ih =>
    intro d x hx
    rcases List.mem_cons.mp hx with h | h
    · subst h
      exact le_trans (le_max_right d x) (init_le_foldl_max t (max d x))
    · exact ih (max d a) x h

theorem listMin_le (l : List α) (x : α) (hx : x ∈ l) : listMin l ≤ x :=
  foldl_min_le_mem l _ x hx

theorem le_listMax (l : List α) (x : α) (hx : x ∈ l) : x ≤ listMax l :=
  mem_le_foldl_max l _ x hx

/-- Number of columns of a list-of-rows matrix (numpy `shape[1]`). -/
def ncols (m : List (List α)) : Nat := (m.headD []).length

/-- Entry `m[i, j]`; junk `0` out of range (in-range use is established separately). -/
def entry (m : List (List α)) (i j : Nat) : α := (m.getD i []).getD j 0

/-- The matrix is a `k × k` array (numpy arrays are rectangular). -/
def Square (m : List (List α)) (k : Nat) : Prop :=
  m.length = k ∧ ∀ row ∈ m, row.length = k

/-- Minimum entry, `X_coupling.min()` over the flattened array. -/
def matMin (m : List (List α)) : α := listMin m.flatten

/-- Lines 87-91 of `_map.py`: `floor = X_coupling.min() - 100`, then the nested
loops overwrite every entry with `i >= j` by `floor` and keep the rest.  The
loop writes in place and never reads the matrix (`floor` is precomputed), so
it equals this pure recomputation of each entry. -/
def maskMatrix (m : List (List α)) : List (List α) :=
  (List.range m.length).map (fun i =>
    (List.range (m.getD i []).length).map (fun j =>
      if j ≤ i then matMin m - 100 else entry m i j))

/-- Line 93 of `_map.py`: `ii = np.argmax(X_coupling.max(1))`, the argmax of the
row-wise maxima. -/
def selRow (m : List (List α)) : Nat :=
  argmaxIdx (fun i => maxVal (fun j => entry m i j) (ncols m)) m.length

/-- Line 94 of `_map.py`: `jj = np.argmax(X_coupling.max(0))`, the argmax of the
column-wise maxima. -/
def selCol (m : List (List α)) : Nat :=
  argmaxIdx (fun j => maxVal (fun i => entry m i j) m.length) (ncols m)

/-- The merge-pair selection performed by `fate_hierarchy` each round. -/
def twoStepPair (m : List (List α)) : Nat × Nat := (selRow m, selCol m)

/-- The selection `fate_hierarchy` does NOT perform: a single global argmax over
the row-major flattened matrix (what `np.argmax` with no axis would give). -/
def flatArgmaxPair (m : List (List α)) : Nat × Nat :=
  let t := argmaxIdx (fun t => entry m (t / ncols m) (t % ncols m)) (m.length * ncols m)
  (t / ncols m, t % ncols m)

theorem Square.ncols_eq {m : List (List α)} {k : Nat} (h : Square m k) (hk : 0 < k) :
    ncols m = k := by
  rcases m with _ | ⟨a, t⟩
  · rcases h with ⟨h1, _⟩
    simp at h1
    omega
  · exact h.2 a (List.mem_cons_self a t)

theorem Square.row_len {m : List (List α)} {k : Nat} (h : Square m k) {i : Nat}
    (hi : i < k) : (m.getD i []).length = k := by
  have hi' : i < m.length := h.1 ▸ hi
  rw [List.getD_eq_getElem _ _ hi']
  exact h.2 _ (List.getElem_mem hi')

theorem matMin_le_entry {m : List (List α)} {k : Nat} (h : Square m k)
    (i j : Nat) (hi : i < k) (hj : j < k) : matMin m ≤ entry m i j := by
  have hi' : i < m.length := h.1 ▸ hi
  have hj' : j < (m.getD i []).length := (h.row_len hi) ▸ hj
  apply listMin_le
  rw [List.mem_flatten]
  refine ⟨m.getD i [], ?_, ?_⟩
  · rw [List.getD_eq_getElem _ _ hi']
    exact List.getElem_mem hi'
  · unfold entry
    rw [List.getD_eq_getElem _ _ hj']
    exact List.getElem_mem hj'

theorem maskMatrix_length (m : List (List α)) : (maskMatrix m).length = m.length := by
  simp [maskMatrix]

theorem maskMatrix_square {m : List (List α)} {k : Nat} (h : Square m k) :
    Square (maskMatrix m) k := by
  refine ⟨by rw [maskMatrix_length, h.1], ?_⟩
  intro row hrow
  simp only [maskMatrix, List.mem_map, List.mem_range] at hrow
  obtain ⟨i, hi, rfl⟩ := hrow
  rw [List.length_map, List.length_range]
  exact h.row_len (h.1 ▸ hi)

theorem maskMatrix_entry {m : List (List α)} {k : Nat} (h : Square m k) {i j : Nat}
    (hi : i < k) (hj : j < k) :
    entry (maskMatrix m) i j = if j ≤ i then matMin m - 100 else entry m i j := by
  have hi' : i < m.length := h.1 ▸ hi
  have hj' : j < (m.getD i []).length := (h.row_len hi) ▸ hj
  have hmask : i < (maskMatrix m).length := by rw [maskMatrix_length]; exact hi'
  have e1 : entry (maskMatrix m) i j = ((maskMatrix m).getD i []).getD j 0 := rfl
  have e2 : (maskMatrix m)[i] = (List.range (m.getD i []).length).map
      (fun j => if j ≤ i then matMin m - 100 else entry m i j) := by
    simp [maskMatrix]
  have hj2 : j < ((List.range (m.getD i []).length).map
      (fun j => if j ≤ i then matMin m - 100 else entry m i j)).length := by
    simpa using hj'
  rw [e1, List.getD_eq_getElem _ _ hmask, e2, List.getD_eq_getElem _ _ hj2]
  simp

theorem floor_lt_entry {m : List (List α)} {k : Nat} (h : Square m k)
    (i j : Nat) (hi : i < k) (hj : j < k) : matMin m - 100 < entry m i j :=
  lt_of_lt_of_le (sub_lt_self _ (by norm_num)) (matMin_le_entry h i j hi hj)

/-- On the masked matrix the two-step argmax always picks a strictly
upper-triangular position: `selRow < selCol < k`.  This is the structural fact
that makes every merge in `fate_hierarchy` pick two distinct groups. -/
theorem selRow_lt_selCol {m : List (List α)} {k : Nat} (h : Square m k) (hk : 2 ≤ k) :
    selRow (maskMatrix m) < selCol (maskMatrix m) ∧
      selCol (maskMatrix m) < k ∧ selRow (maskMatrix m) < k := by
  have hkpos : 0 < k := by omega
  have hsq : Square (maskMatrix m) k := maskMatrix_square h
  have hlen : (maskMatrix m).length = k := hsq.1
  have hnc : ncols (maskMatrix m) = k := hsq.ncols_eq hkpos
  set mm := maskMatrix m with hmm
  set fl := matMin m - 100 with hfl
  -- entry characterisation
  have hE : ∀ i j, i < k → j < k →
      entry mm i j = if j ≤ i then fl else entry m i j := fun i j hi hj =>
    maskMatrix_entry h hi hj
  have hEup : ∀ i j, i < j → j < k → fl < entry mm i j := by
    intro i j hij hj
    rw [hE i j (lt_trans hij hj) hj, if_neg (by omega)]
    exact floor_lt_entry h i j (lt_trans hij hj) hj
  have hElow : ∀ i j, j ≤ i → i < k → j < k → entry mm i j = fl := by
    intro i j hij hi hj
    rw [hE i j hi hj, if_pos hij]
  -- row, column maxima
  have hselR : selRow mm = argmaxIdx (fun i => maxVal (fun j => entry mm i j) (ncols mm))
      k := by rw [selRow, hlen]
  have hselC : selCol mm = argmaxIdx (fun j => maxVal (fun i => entry mm i j) mm.length)
      k := by rw [selCol, hnc]
  rw [hselR, hselC]
  set R := fun i => maxVal (fun j => entry mm i j) (ncols mm) with hR
  set C := fun j => maxVal (fun i => entry mm i j) mm.length with hC
  set ii := argmaxIdx R k with hii
  set jj := argmaxIdx C k with hjj
  have hii_lt : ii < k := argmaxIdx_lt _ k hkpos
  have hjj_lt : jj < k := argmaxIdx_lt _ k hkpos
  have hRtop : ∀ i, i < k → R i ≤ R ii := fun i hi => le_argmaxIdx R k i hi
  have hCtop : ∀ j, j < k → C j ≤ C jj := fun j hj => le_argmaxIdx C k j hj
  have hRfirst : ∀ i, i < ii → R i < R ii := fun i hi => argmaxIdx_first R k i hi
  -- each row max is attained and dominates every entry of its row
  have hRattain : ∀ i, R i = entry mm i (argmaxIdx (fun j => entry mm i j) k) := by
    intro i; rw [hR]; simp only [maxVal]; rw [hnc]
  have hRge : ∀ i j, j < k → entry mm i j ≤ R i := by
    intro i j hj; rw [hR]; simp only [maxVal]; rw [hnc]
    exact le_argmaxIdx (fun j => entry mm i j) k j hj
  have hCattain : ∀ j, C j = entry mm (argmaxIdx (fun i => entry mm i j) k) j := by
    intro j; rw [hC]; simp only [maxVal]; rw [hlen]
  have hCge : ∀ j i, i < k → entry mm i j ≤ C j := by
    intro j i hi; rw [hC]; simp only [maxVal]; rw [hlen]
    exact le_argmaxIdx (fun i => entry mm i j) k i hi
  -- the top row max is above the floor
  have h01 : fl < entry mm 0 1 := hEup 0 1 (by omega) hk
  have hflR : fl < R ii :=
    lt_of_lt_of_le h01 (le_trans (hRge 0 1 hk) (hRtop 0 hkpos))
  -- witness column of row ii's max
  set js := argmaxIdx (fun j => entry mm ii j) k with hjs
  have hjs_lt : js < k := argmaxIdx_lt _ k hkpos
  have hRii : R ii = entry mm ii js := hRattain ii
  have hii_js : ii < js := by
    by_contra hle
    have : entry mm ii js = fl := hElow ii js (by omega) hii_lt hjs_lt
    rw [hRii, this] at hflR
    exact lt_irrefl _ hflR
  -- the column maxima dominate the row max
  have hRC : R ii ≤ C jj := by
    calc R ii = entry mm ii js := hRii
      _ ≤ C js := hCge js ii hii_lt
      _ ≤ C jj := hCtop js hjs_lt
  have hflC : fl < C jj := lt_of_lt_of_le hflR hRC
  -- witness row of column jj's max
  set is := argmaxIdx (fun i => entry mm i jj) k with his
  have his_lt : is < k := argmaxIdx_lt _ k hkpos
  have hCjj : C jj = entry mm is jj := hCattain jj
  have his_jj : is < jj := by
    by_contra hle
    have : entry mm is jj = fl := hElow is jj (by omega) his_lt hjj_lt
    rw [hCjj, this] at hflC
    exact lt_irrefl _ hflC
  refine ⟨?_, hjj_lt, hii_lt⟩
  by_contra hle
  have hisii : is < ii := by omega
  have h1 : R is < R ii := hRfirst is hisii
  have h2 : R ii ≤ R is := by
    calc R ii ≤ C jj := hRC
      _ = entry mm is jj := hCjj
      _ ≤ R is := hRge is jj hjj_lt
  exact absurd h1 (not_lt.mpr h2)

/-- Errors raised by the Python functions: the two `ValueError`s of
`fate_hierarchy` and `fate_bias`, the `ValueError` on an unknown transition
map, and Python's `UnboundLocalError` on the local `fate_names` of
`fate_hierarchy` when the merge loop never ran. -/
inductive MapErr where
  | invalidSelection
  | unboundFateNames
  | invalidFateCount
  | unknownSource
  deriving DecidableEq, Repr

/-- Oracle for the externally computed part of `fate_coupling` (defined outside
this file's source): the matrix produced by `get_normalized_covariance` for the
given (nested) fate list, and the resolved mega-cluster names (`fate_names`).
Nothing is assumed about the matrix unless stated as a hypothesis. -/
structure Oracle (α : Type) where
  mat : List (List Nat) → List (List α)
  names : List (List Nat) → List String

/-- The dictionary `fate_coupling` stores at
`adata.uns[f"fate_coupling_{source}"]` (lines 256-259 of `_map.py`):
the coupling matrix `X_coupling` and `fate_names`. -/
def fate_coupling_result (orc : Oracle α) (fates : List (List Nat)) :
    List (List α) × List String :=
  (orc.mat fates, orc.names fates)

/-- State of `fate_hierarchy`'s merge loop (locals of lines 54-118 of
`_map.py`).  `node_groups` is a Python dict whose keys are always exactly
`0, 1, ..., next_node - 1` in insertion order, so it is modelled as a list
indexed by the key; `parent_map` has non-consecutive keys and is an
insertion-ordered association list.  `uns` is the
`adata.uns[f"fate_coupling_{source}"]` slot written by `fate_coupling`. -/
structure HierState (α : Type) where
  counter : Nat
  node_groups : List (List Nat)
  parent_map : List (Nat × Nat)
  fates : List (List Nat)
  node_names : List Nat
  next_node : Nat
  histX : List (List (List α))
  histPairs : List (Nat × Nat)
  histNames : List (List Nat)
  uns : Option (List (List α) × List String)
  fate_names? : Option (List String)
  deriving DecidableEq

/-- Lines 103-116 of `_map.py`: rebuild `selected_fates_tmp` after merging the
groups at positions `ii` and `jj` — the groups before position
`ix = min(ii, jj)` (read off through `new_ix`, the positions other than `ii`
and `jj`), then the concatenated merged group, then the remaining groups. -/
def rebuiltFates (fates : List (List Nat)) (ii jj : Nat) : List (List Nat) :=
  let kf := fates.length
  let new_ix := (List.range kf).filter (fun i => !(i == ii || i == jj))
  let ix := min ii jj
  (List.range ix).map (fun x => fates.getD (new_ix.getD x 0) [])
    ++ [fates.getD ii [] ++ fates.getD jj []]
    ++ (List.range' ix (kf - 2 - ix)).map (fun x => fates.getD (new_ix.getD x 0) [])

/-- One iteration of the `while len(node_names) > 2` loop (lines 70-118 of
`_map.py`).  Returns the new state and whether the `break` on line 110 fired;
the three fields that the `break` leaves untouched (`fates`, the insertion of
the new node into `node_names`, the `next_node` increment) are conditional on
the break test `len(new_ix) == 0`.

Fidelity notes: the in-place masking `X_coupling[i, j] = floor` of line 91
mutates the array that `fate_coupling` stored in `adata.uns`, so the `uns`
slot ends up holding the masked matrix, while `X_history` received a copy
(`np.array(X_coupling)`) taken before the masking; `fate_names` is assigned
only when `counter == 1`; list indexing out of range (which would raise in
Python) is modelled with `getD` defaults and shown unreachable separately;
`list.insert` clamps the position to the length in Python, `insertIdx` is a
no-op past the length — the position is shown in range separately. -/
def hierStep (orc : Oracle α) (s : HierState α) : HierState α × Bool :=
  let M := orc.mat s.fates
  let Mm := maskMatrix M
  let ii := selRow Mm
  let jj := selCol Mm
  let vii := s.node_names.getD ii 0
  let vjj := s.node_names.getD jj 0
  let node_names_1 := s.node_names.filter (fun n => !(n == vii || n == vjj))
  let new_ix := (List.range s.fates.length).filter (fun i => !(i == ii || i == jj))
  ({ s with
      counter := s.counter + 1
      histNames := s.histNames ++ [s.node_names]
      uns := some (Mm, orc.names s.fates)
      histX := s.histX ++ [M]
      histPairs := s.histPairs ++ [(ii, jj)]
      node_groups := s.node_groups ++
        [s.node_groups.getD vii [] ++ s.node_groups.getD vjj []]
      parent_map := s.parent_map ++ [(vii, s.next_node), (vjj, s.next_node)]
      fate_names? := if s.counter + 1 = 1 then some (orc.names s.fates) else s.fate_names?
      node_names := if new_ix.length = 0 then node_names_1
        else node_names_1.insertIdx (min ii jj) s.next_node
      fates := if new_ix.length = 0 then s.fates else rebuiltFates s.fates ii jj
      next_node := if new_ix.length = 0 then s.next_node else s.next_node + 1 },
    new_ix.length == 0)

/-- The `while len(node_names) > 2` loop, with explicit fuel.  The invariant
proofs show each round removes exactly one active node, so the fuel
`selected_fates.length` passed by `fate_hierarchy` is never exhausted. -/
def hierLoop (orc : Oracle α) : Nat → HierState α → HierState α
  | 0, s => s
  | fuel + 1, s =>
    if 2 < s.node_names.length then
      match hierStep orc s with
      | (s1, true) => s1
      | (s1, false) => hierLoop orc fuel s1
    else s

/-- Initial locals of `fate_hierarchy` (lines 54-67 of `_map.py`). -/
def initState (α : Type) (selected_fates : List (List Nat)) : HierState α :=
  { counter := 0
    node_groups := (List.range selected_fates.length).map (fun i => [i])
    parent_map := []
    fates := selected_fates
    node_names := List.range selected_fates.length
    next_node := selected_fates.length
    histX := []
    histPairs := []
    histNames := []
    uns := none
    fate_names? := none }

/-- What `fate_hierarchy` leaves behind on success: the dictionary written to
`adata.uns[f"fate_hierarchy_{source}"]` (`parent_map`, `node_mapping`, the
`history` triple, `fate_names`) together with the final loop state needed to
state frame properties: `root` is the synthetic root id (the final
`next_node`), `final_node_names` the two nodes still active at termination,
`node_groups` the leaf-composition table, and `uns` the (mutated)
`adata.uns[f"fate_coupling_{source}"]` slot. -/
structure HierResult (α : Type) where
  parent_map : List (Nat × Nat)
  node_mapping : List (Nat × List String)
  histX : List (List (List α))
  histPairs : List (Nat × Nat)
  histNames : List (List Nat)
  fate_names : List String
  root : Nat
  final_node_names : List Nat
  node_groups : List (List Nat)
  uns : Option (List (List α) × List String)
  deriving DecidableEq

/-- Shallow embedding of `fate_hierarchy` (lines 24-135 of `_map.py`).

The Python guard on line 51 only rejects a non-list or an *empty* list
(`len(selected_fates) > 0`), although its error message says "more than one
elements".  When the merge loop body never runs (fewer than three fates) the
local variable `fate_names` is never assigned, and line 125 raises Python's
`UnboundLocalError`, modelled as `.error .unboundFateNames`; in that case
nothing is written to `adata.uns`.  Scalar entries of `selected_fates` are
wrapped into singleton lists by lines 62-65, so the argument is taken here
already in wrapped form. -/
def hierResultOf (sF : HierState α) (fnames : List String) : HierResult α :=
  { parent_map := sF.parent_map ++ sF.node_names.map (fun n => (n, sF.next_node))
    node_mapping := sF.node_groups.enum.map
      (fun p => (p.1, p.2.map (fun x => fnames.getD x "")))
    histX := sF.histX
    histPairs := sF.histPairs
    histNames := sF.histNames
    fate_names := fnames
    root := sF.next_node
    final_node_names := sF.node_names
    node_groups := sF.node_groups
    uns := sF.uns }

/-- Lines 120-134 of `_map.py`, after the merge loop: give every still-active
node the synthetic root `next_node` as parent, build `node_mapping`, and write
the result dictionary — unless `fate_names` was never assigned (the loop body
never ran), in which case line 125 raises `UnboundLocalError`. -/
def hierFinish (sF : HierState α) : Except MapErr (HierResult α) :=
  match sF.fate_names? with
  | none => .error .unboundFateNames
  | some fnames => .ok (hierResultOf sF fnames)

def fate_hierarchy (orc : Oracle α) (selected_fates : List (List Nat)) :
    Except MapErr (HierResult α) :=
  if selected_fates.length = 0 then .error .invalidSelection
  else hierFinish (hierLoop orc selected_fates.length (initState α selected_fates))

/-- A successful run of `fate_hierarchy` is exactly a run of the merge loop
whose final state has `fate_names` assigned, finished by `hierResultOf`. -/
theorem fate_hierarchy_ok {orc : Oracle α} {fs : List (List Nat)} {r : HierResult α}
    (hrun : fate_hierarchy orc fs = .ok r) :
    ∃ fnames, (hierLoop orc fs.length (initState α fs)).fate_names? = some fnames ∧
      r = hierResultOf (hierLoop orc fs.length (initState α fs)) fnames := by
  by_cases h0 : fs.length = 0
  · rw [fate_hierarchy, if_pos h0] at hrun
    cases hrun
  · rw [fate_hierarchy, if_neg h0] at hrun
    unfold hierFinish at hrun
    rcases hfn : (hierLoop orc fs.length (initState α fs)).fate_names? with _ | fnames
    · rw [hfn] at hrun
      cases hrun
    · rw [hfn] at hrun
      injection hrun with h
      exact ⟨fnames, rfl, h.symm⟩

/-- The fields of `hierStep` that do not depend on the `break` branch. -/
theorem hierStep_common (orc : Oracle α) (s : HierState α) :
    ((hierStep orc s).1).histX = s.histX ++ [(fate_coupling_result orc s.fates).1] ∧
      ((hierStep orc s).1).histPairs = s.histPairs ++
        [twoStepPair (maskMatrix (fate_coupling_result orc s.fates).1)] ∧
      ((hierStep orc s).1).histNames = s.histNames ++ [s.node_names] ∧
      ((hierStep orc s).1).uns = some
        (maskMatrix (fate_coupling_result orc s.fates).1,
          (fate_coupling_result orc s.fates).2) ∧
      ((hierStep orc s).1).counter = s.counter + 1 :=
  ⟨rfl, rfl, rfl, rfl, rfl⟩

/-- Invariant: each recorded merged pair is the two-step argmax selection on
the masked copy of the recorded (pre-mask) coupling matrix of its round. -/
def PairsRel (s : HierState α) : Prop :=
  s.histX.length = s.histPairs.length ∧
    ∀ t, t < s.histPairs.length →
      s.histPairs.getD t (0, 0) = twoStepPair (maskMatrix (s.histX.getD t []))

theorem pairsRel_step (orc : Oracle α) (s : HierState α) (h : PairsRel s) :
    PairsRel (hierStep orc s).1 := by
  obtain ⟨hx, hp, -, -, -⟩ := hierStep_common orc s
  constructor
  · rw [hx, hp]
    simp [h.1]
  · intro t ht
    rw [hp] at ht ⊢
    rw [hx]
    simp only [List.length_append, List.length_singleton] at ht
    rcases Nat.lt_succ_iff_lt_or_eq.mp ht with h2 | h2
    · rw [List.getD_append _ _ _ _ h2, List.getD_append _ _ _ _ (h.1 ▸ h2)]
      exact h.2 t h2
    · subst h2
      rw [List.getD_append_right _ _ _ _ (le_refl _),
        List.getD_append_right _ _ _ _ (le_of_eq h.1)]
      simp [h.1]

theorem pairsRel_loop (orc : Oracle α) : ∀ (fuel : Nat) (s : HierState α),
    PairsRel s → PairsRel (hierLoop orc fuel s) := by
  intro fuel
  induction fuel with
  | zero => intro s h; exact h
  | succ f ih =>
    intro s h
    unfold hierLoop
    split
    · rcases hstep : hierStep orc s with ⟨s1, b⟩
      have h1 : PairsRel s1 := by
        have h2 := pairsRel_step orc s h
        rw [hstep] at h2
        exact h2
      cases b
      · exact ih s1 h1
      · exact h1
    · exact h

/-- The concrete 4 × 4 symmetric coupling matrix separating the two-step
selection from a flat global argmax: after masking, the maxima `5` sit at
`(0,3)` and `(1,2)`; the row-wise argmax picks row `0`, the column-wise argmax
picks column `2`, so the merged pair is `(0, 2)` — not the position `(0, 3)`
of the global maximum. -/
def exYmat : List (List ℤ) :=
  [[1, 0, 0, 5], [0, 1, 5, 0], [0, 5, 1, 0], [5, 0, 0, 1]]

set_option maxRecDepth 10000 in
/-- C1: in every round of `fate_hierarchy`, the merged pair recorded in the
history is obtained from that round's coupling matrix by overwriting every
entry with `i ≥ j` by `min - 100` (`maskMatrix`) and then taking `ii` as the
argmax over rows of the row-wise maxima and `jj` as the argmax over columns of
the column-wise maxima, first index on ties (`twoStepPair`); and this
two-step selection is not the single global argmax over the flattened matrix,
the two differing on the symmetric matrix `exYmat`. -/
theorem fate_hierarchy_two_step_selection
    (orc : Oracle α) (fs : List (List Nat)) (r : HierResult α)
    (hrun : fate_hierarchy orc fs = .ok r) :
    (∀ t, t < r.histPairs.length →
        r.histPairs.getD t (0, 0) = twoStepPair (maskMatrix (r.histX.getD t []))) ∧
      twoStepPair (maskMatrix exYmat) ≠ flatArgmaxPair (maskMatrix exYmat) := by
  constructor
  · obtain ⟨fnames, -, hr⟩ := fate_hierarchy_ok hrun
    subst hr
    have hP : PairsRel (hierLoop orc fs.length (initState α fs)) :=
      pairsRel_loop orc fs.length (initState α fs)
        ⟨rfl, by intro t ht; simp [initState] at ht⟩
    exact hP.2
  · decide

/-- A tiny concrete coupling oracle used for witnesses: on the three singleton
fates it returns a fixed symmetric 3 × 3 coupling matrix, elsewhere a zero
matrix of matching shape. -/
def orc3 : Oracle ℤ :=
  { mat := fun fs => if fs = [[0], [1], [2]] then
      [[10, 5, 2], [5, 10, 3], [2, 3, 10]]
    else fs.map (fun _ => fs.map (fun _ => (0 : ℤ)))
    names := fun fs => fs.map (fun _ => "f") }

theorem getD_concat_self {β : Type} (l : List β) (x : β) (d : β) :
    (l ++ [x]).getD l.length d = x := by
  rw [List.getD_append_right _ _ _ _ (le_refl _)]
  simp

/-- Removing two distinct members of a duplicate-free list by a value filter:
the original list is a permutation of the two members in front of the
filtered remainder (this is lines 103-106 of `_map.py`). -/
theorem perm_cons_cons_filter {l : List Nat} {a b : Nat} (hnd : l.Nodup)
    (ha : a ∈ l) (hb : b ∈ l) (hab : a ≠ b) :
    l.Perm (a :: b :: l.filter (fun n => !(n == a || n == b))) := by
  have hsplit : List.Perm (l.filter (fun n => (n == a || n == b)) ++
      l.filter (fun n => !(n == a || n == b))) l := List.filter_append_perm _ l
  have hpos : List.Perm (l.filter (fun n => (n == a || n == b))) [a, b] := by
    apply List.Subperm.antisymm
    · apply List.Nodup.subperm (hnd.filter _)
      intro x hx
      have hmem := List.of_mem_filter hx
      simp only [Bool.or_eq_true, beq_iff_eq] at hmem
      rcases hmem with h | h <;> simp [h]
    · apply List.Nodup.subperm (by simp [hab])
      intro x hx
      simp only [List.mem_cons, List.not_mem_nil, or_false] at hx
      rcases hx with h | h
      · subst h; exact List.mem_filter.mpr ⟨ha, by simp⟩
      · subst h; exact List.mem_filter.mpr ⟨hb, by simp⟩
  exact hsplit.symm.trans (hpos.append_right _)

theorem flatten_map_singleton (l : List Nat) :
    (l.map (fun n => ([n] : List Nat))).flatten = l := by
  induction l with
  | nil => rfl
  | cons a t ih => simp [ih]

/-- Well-formedness of the coupling oracle: `fate_coupling` returns a square
matrix over the resolved mega-clusters, one per requested fate group (the
valid-selection regime of `analyze_selected_fates`, in which every requested
group matches at least one cell). -/
def WFOracle (orc : Oracle α) : Prop :=
  ∀ fs, Square (orc.mat fs) fs.length

/-- The list of original leaves currently covered by the active nodes. -/
def leavesOf (s : HierState α) : List Nat :=
  (s.node_names.map (fun n => s.node_groups.getD n [])).flatten

/-- Invariant of `fate_hierarchy`'s merge loop over `N` initial fates. -/
structure HInv (N : Nat) (s : HierState α) : Prop where
  nn_nodup : s.node_names.Nodup
  len_eq : s.node_names.length = s.fates.length
  nn_lt : ∀ n ∈ s.node_names, n < s.next_node
  next_pos : 0 < s.next_node
  groups_len : s.node_groups.length = s.next_node
  keys_perm : (s.parent_map.map Prod.fst ++ s.node_names).Perm (List.range s.next_node)
  leaves_perm : (leavesOf s).Perm (List.range N)
  groups_nodup : ∀ g ∈ s.node_groups, g.Nodup
  hist_len : s.histPairs.length = s.histNames.length ∧ s.histX.length = s.histNames.length
  counter_hist : s.counter = s.histNames.length
  next_eq : s.next_node = N + s.histNames.length
  len_hist : s.node_names.length + s.histNames.length = N
  names_some : s.fate_names?.isSome ↔ 1 ≤ s.counter
  hist_ids : ∀ L ∈ s.histNames, ∀ n ∈ L, n < s.next_node
  merge_rec : ∀ t, t < s.histNames.length →
    s.node_groups.getD (N + t) [] =
      s.node_groups.getD
        ((s.histNames.getD t []).getD (s.histPairs.getD t (0, 0)).1 0) [] ++
      s.node_groups.getD
        ((s.histNames.getD t []).getD (s.histPairs.getD t (0, 0)).2 0) []
  uns_last : s.histX ≠ [] → ∃ nm, s.uns =
    some (maskMatrix (s.histX.getD (s.histX.length - 1) []), nm)
  last_sq : s.histX ≠ [] →
    Square (s.histX.getD (s.histX.length - 1) []) (s.node_names.length + 1)

theorem hInv_init (fs : List (List Nat)) (hN : 0 < fs.length) :
    HInv fs.length (initState α fs) := by
  have hgroups : ∀ n, n < fs.length →
      (((List.range fs.length).map (fun i => ([i] : List Nat))).getD n []) = [n] := by
    intro n hn
    have hn' : n < ((List.range fs.length).map (fun i => ([i] : List Nat))).length := by
      simpa using hn
    rw [List.getD_eq_getElem _ _ hn']
    simp
  refine ⟨?_, ?_, ?_, ?_, ?_, ?_, ?_, ?_, ?_, ?_, ?_, ?_, ?_, ?_, ?_, ?_, ?_⟩
  · exact List.nodup_range fs.length
  · simp [initState]
  · intro n hn
    simpa [initState] using List.mem_range.mp hn
  · exact hN
  · simp [initState]
  · simpa [initState] using List.Perm.refl _
  · have : leavesOf (initState α fs) = List.range fs.length := by
      unfold leavesOf initState
      simp only []
      rw [List.map_congr_left (fun n hn => hgroups n (List.mem_range.mp hn))]
      exact flatten_map_singleton _
    rw [this]
  · intro g hg
    simp only [initState, List.mem_map] at hg
    obtain ⟨i, -, rfl⟩ := hg
    exact List.nodup_singleton i
  · exact ⟨rfl, rfl⟩
  · rfl
  · simp [initState]
  · simp [initState]
  · simp [initState]
  · intro L hL
    simp [initState] at hL
  · intro t ht
    simp [initState] at ht
  · intro hne
    exact absurd rfl hne
  · intro hne
    exact absurd rfl hne

/-- The state after one non-breaking round of the merge loop that selected
positions `ii` and `jj` on coupling matrix `M` with resolved names `nm`
(the `else` path of `hierStep`, written out with the selection abstracted). -/
def mergeState (s : HierState α) (M : List (List α)) (nm : List String)
    (ii jj : Nat) : HierState α :=
  let vii := s.node_names.getD ii 0
  let vjj := s.node_names.getD jj 0
  { s with
    counter := s.counter + 1
    histNames := s.histNames ++ [s.node_names]
    uns := some (maskMatrix M, nm)
    histX := s.histX ++ [M]
    histPairs := s.histPairs ++ [(ii, jj)]
    node_groups := s.node_groups ++
      [s.node_groups.getD vii [] ++ s.node_groups.getD vjj []]
    parent_map := s.parent_map ++ [(vii, s.next_node), (vjj, s.next_node)]
    fate_names? := if s.counter + 1 = 1 then some nm else s.fate_names?
    node_names := (s.node_names.filter (fun n => !(n == vii || n == vjj))).insertIdx
      (min ii jj) s.next_node
    fates := rebuiltFates s.fates ii jj
    next_node := s.next_node + 1 }

theorem hierStep_eq_mergeState (orc : Oracle α) (s : HierState α)
    (h0 : ((List.range s.fates.length).filter (fun i =>
        !(i == selRow (maskMatrix (orc.mat s.fates)) ||
          i == selCol (maskMatrix (orc.mat s.fates))))).length ≠ 0) :
    hierStep orc s = (mergeState s (orc.mat s.fates) (orc.names s.fates)
      (selRow (maskMatrix (orc.mat s.fates))) (selCol (maskMatrix (orc.mat s.fates))),
      false) := by
  unfold hierStep mergeState
  simp only [if_neg h0, Prod.mk.injEq]
  exact ⟨trivial, beq_eq_false_iff_ne.mpr h0⟩

theorem rebuiltFates_length (fates : List (List Nat)) {ii jj : Nat}
    (hij : ii < jj) (hjk : jj < fates.length) :
    (rebuiltFates fates ii jj).length = fates.length - 1 := by
  unfold rebuiltFates
  simp only [List.length_append, List.length_map, List.length_range, List.length_range',
    List.length_cons, List.length_nil, min_eq_left hij.le]
  omega

/-- One non-breaking merge round preserves the loop invariant and shrinks the
active node list by one. -/
theorem hInv_merge {N : Nat} {s : HierState α} (hinv : HInv N s)
    (hlen : 2 < s.node_names.length) (M : List (List α)) (nm : List String)
    {ii jj : Nat} (hij : ii < jj) (hjk : jj < s.fates.length)
    (hsq : Square M s.fates.length) :
    HInv N (mergeState s M nm ii jj) ∧
      (mergeState s M nm ii jj).node_names.length = s.node_names.length - 1 := by
  obtain ⟨nn_nodup, len_eq, nn_lt, next_pos, groups_len, keys_perm, leaves_perm,
    groups_nodup, hist_len, counter_hist, next_eq, len_hist, names_some, hist_ids,
    merge_rec, uns_last, last_sq⟩ := hinv
  have hii_len : ii < s.node_names.length := by omega
  have hjj_len : jj < s.node_names.length := by omega
  set vii := s.node_names.getD ii 0 with hviidef
  set vjj := s.node_names.getD jj 0 with hvjjdef
  have hvii_mem : vii ∈ s.node_names := by
    rw [hviidef, List.getD_eq_getElem _ _ hii_len]
    exact List.getElem_mem hii_len
  have hvjj_mem : vjj ∈ s.node_names := by
    rw [hvjjdef, List.getD_eq_getElem _ _ hjj_len]
    exact List.getElem_mem hjj_len
  have hvne : vii ≠ vjj := by
    rw [hviidef, hvjjdef, List.getD_eq_getElem _ _ hii_len, List.getD_eq_getElem _ _ hjj_len]
    intro hc
    have := (nn_nodup.getElem_inj_iff).mp hc
    omega
  set nn1 := s.node_names.filter (fun n => !(n == vii || n == vjj)) with hnn1def
  have hpermN : s.node_names.Perm (vii :: vjj :: nn1) :=
    perm_cons_cons_filter nn_nodup hvii_mem hvjj_mem hvne
  have hlen1 : nn1.length = s.node_names.length - 2 := by
    have hl := hpermN.length_eq
    simp only [List.length_cons] at hl
    omega
  have hnn1_sub : ∀ n ∈ nn1, n ∈ s.node_names := fun n hn => (List.mem_filter.mp hn).1
  have hnn1_nodup : nn1.Nodup := nn_nodup.filter _
  have hnext_not : s.next_node ∉ nn1 := fun hmem =>
    absurd (nn_lt _ (hnn1_sub _ hmem)) (lt_irrefl _)
  have hpermNN : ((nn1.insertIdx (min ii jj) s.next_node)).Perm (s.next_node :: nn1) := by
    rw [min_eq_left hij.le]
    exact List.perm_insertIdx _ _ (by omega)
  set gfun := fun n => s.node_groups.getD n [] with hgfun
  set gnew := s.node_groups.getD vii [] ++ s.node_groups.getD vjj [] with hgnewdef
  -- field projections of the merged state
  have eNN : (mergeState s M nm ii jj).node_names =
      nn1.insertIdx (min ii jj) s.next_node := rfl
  have eGroups : (mergeState s M nm ii jj).node_groups = s.node_groups ++ [gnew] := rfl
  have eNext : (mergeState s M nm ii jj).next_node = s.next_node + 1 := rfl
  have ePM : (mergeState s M nm ii jj).parent_map =
      s.parent_map ++ [(vii, s.next_node), (vjj, s.next_node)] := rfl
  have eHX : (mergeState s M nm ii jj).histX = s.histX ++ [M] := rfl
  have eHP : (mergeState s M nm ii jj).histPairs = s.histPairs ++ [(ii, jj)] := rfl
  have eHN : (mergeState s M nm ii jj).histNames = s.histNames ++ [s.node_names] := rfl
  have eFates : (mergeState s M nm ii jj).fates = rebuiltFates s.fates ii jj := rfl
  have eUns : (mergeState s M nm ii jj).uns = some (maskMatrix M, nm) := rfl
  have eC : (mergeState s M nm ii jj).counter = s.counter + 1 := rfl
  have eFN : (mergeState s M nm ii jj).fate_names? =
      (if s.counter + 1 = 1 then some nm else s.fate_names?) := rfl
  -- group-table stability
  have hg_stable : ∀ n, n < s.next_node →
      (s.node_groups ++ [gnew]).getD n [] = s.node_groups.getD n [] := by
    intro n hn
    exact List.getD_append _ _ _ _ (by rw [groups_len]; exact hn)
  have hg_new : (s.node_groups ++ [gnew]).getD s.next_node [] = gnew := by
    conv_lhs => rw [← groups_len]
    exact getD_concat_self _ _ _
  have hlenNN : (nn1.insertIdx (min ii jj) s.next_node).length =
      s.node_names.length - 1 := by
    rw [min_eq_left hij.le, List.length_insertIdx _ _ (by omega)]
    omega
  refine ⟨⟨?_, ?_, ?_, ?_, ?_, ?_, ?_, ?_, ?_, ?_, ?_, ?_, ?_, ?_, ?_, ?_, ?_⟩, ?_⟩
  · -- nn_nodup
    rw [eNN]
    exact (hpermNN.nodup_iff).mpr (List.nodup_cons.mpr ⟨hnext_not, hnn1_nodup⟩)
  · -- len_eq
    rw [eNN, eFates, hlenNN, rebuiltFates_length _ hij hjk]
    omega
  · -- nn_lt
    intro n hn
    rw [eNN] at hn
    rw [eNext]
    rcases List.mem_cons.mp (hpermNN.mem_iff.mp hn) with h | h
    · omega
    · exact Nat.lt_succ_of_lt (nn_lt _ (hnn1_sub _ h))
  · -- next_pos
    rw [eNext]; omega
  · -- groups_len
    rw [eGroups, eNext]
    simp [groups_len]
  · -- keys_perm
    rw [eNN, ePM, eNext]
    have hmapfst : (s.parent_map ++ [(vii, s.next_node), (vjj, s.next_node)]).map
        Prod.fst = s.parent_map.map Prod.fst ++ [vii, vjj] := by simp
    rw [hmapfst, List.range_succ, List.append_assoc]
    have hmid : (List.map Prod.fst s.parent_map ++
        (s.node_names ++ [s.next_node])).Perm
        (List.range s.next_node ++ [s.next_node]) := by
      rw [← List.append_assoc]
      exact keys_perm.append_right _
    refine List.Perm.trans (List.Perm.append_left _ ?_) hmid
    -- ⊢ ([vii, vjj] ++ insertIdx).Perm (node_names ++ [next])
    have r1 : ([vii, vjj] ++ nn1.insertIdx (min ii jj) s.next_node).Perm
        (vii :: vjj :: s.next_node :: nn1) := (hpermNN.cons vjj).cons vii
    have r2 : (s.node_names ++ [s.next_node]).Perm
        ((vii :: vjj :: nn1) ++ [s.next_node]) := hpermN.append_right _
    have r4 : ((vii :: vjj :: nn1) ++ [s.next_node]).Perm
        (vii :: vjj :: s.next_node :: nn1) :=
      ((List.perm_append_singleton _ _).cons vjj).cons vii
    exact r1.trans (r2.trans r4).symm
  · -- leaves_perm
    have hstab1 : nn1.map (fun n => (s.node_groups ++ [gnew]).getD n []) =
        nn1.map gfun := by
      refine List.map_congr_left ?_
      intro n hn
      exact hg_stable n (nn_lt _ (hnn1_sub _ hn))
    have l1 : (leavesOf (mergeState s M nm ii jj)).Perm
        (((s.next_node :: nn1).map (fun n => (s.node_groups ++ [gnew]).getD n [])).flatten) := by
      unfold leavesOf
      rw [eNN, eGroups]
      exact (hpermNN.map _).flatten
    have l2 : ((s.next_node :: nn1).map
        (fun n => (s.node_groups ++ [gnew]).getD n [])).flatten =
        gnew ++ (nn1.map gfun).flatten := by
      simp only [List.map_cons, List.flatten_cons, hstab1, hg_new]
    have l3 : (leavesOf s).Perm (gnew ++ (nn1.map gfun).flatten) := by
      unfold leavesOf
      refine List.Perm.trans ((hpermN.map gfun).flatten) ?_
      simp only [List.map_cons, List.flatten_cons, hgnewdef, List.append_assoc]
      exact List.Perm.refl _
    exact (l1.trans (l2 ▸ List.Perm.refl _)).trans (l3.symm.trans leaves_perm)
  · -- groups_nodup
    intro g hg
    rw [eGroups] at hg
    rcases List.mem_append.mp hg with h | h
    · exact groups_nodup g h
    · have hgeq : g = gnew := by simpa using h
      subst hgeq
      have h1 : ((s.node_names.map gfun).flatten).Nodup :=
        (leaves_perm.nodup_iff).mpr (List.nodup_range N)
      have h2 : (((vii :: vjj :: nn1).map gfun).flatten).Nodup :=
        ((hpermN.map gfun).flatten.nodup_iff).mp h1
      simp only [List.map_cons, List.flatten_cons] at h2
      rw [← List.append_assoc] at h2
      exact List.Nodup.sublist (List.sublist_append_left _ _) h2
  · -- hist_len
    rw [eHP, eHN, eHX]
    constructor <;> simp [hist_len.1, hist_len.2]
  · -- counter_hist
    rw [eC, eHN]
    simp [counter_hist]
  · -- next_eq
    rw [eNext, eHN]
    simp only [List.length_append, List.length_singleton]
    omega
  · -- len_hist
    rw [eNN, eHN, hlenNN]
    simp only [List.length_append, List.length_singleton]
    omega
  · -- names_some
    rw [eFN, eC]
    constructor
    · intro; omega
    · intro
      split
      · simp
      · exact names_some.mpr (by omega)
  · -- hist_ids
    intro L hL n hn
    rw [eHN] at hL
    rw [eNext]
    rcases List.mem_append.mp hL with h | h
    · exact Nat.lt_succ_of_lt (hist_ids L h n hn)
    · have : L = s.node_names := by simpa using h
      subst this
      exact Nat.lt_succ_of_lt (nn_lt n hn)
  · -- merge_rec
    intro t ht
    rw [eHN] at ht
    rw [eGroups, eHN, eHP]
    simp only [List.length_append, List.length_singleton] at ht
    have hbound : ∀ L, L ∈ s.histNames → ∀ p : Nat, L.getD p 0 < s.next_node := by
      intro L hL p
      by_cases hp : p < L.length
      · rw [List.getD_eq_getElem _ _ hp]
        exact hist_ids L hL _ (List.getElem_mem hp)
      · rw [List.getD_eq_default _ _ (by omega)]
        exact next_pos
    rcases Nat.lt_succ_iff_lt_or_eq.mp ht with h2 | h2
    · -- an earlier round: everything is stable under the appends
      have hLt : t < s.histNames.length := h2
      have hPt : t < s.histPairs.length := by omega
      have hLmem : s.histNames.getD t [] ∈ s.histNames := by
        rw [List.getD_eq_getElem _ _ hLt]
        exact List.getElem_mem hLt
      rw [List.getD_append _ _ _ _ hLt, List.getD_append _ _ _ _ hPt]
      rw [hg_stable _ (by omega), hg_stable _ (hbound _ hLmem _),
        hg_stable _ (hbound _ hLmem _)]
      exact merge_rec t h2
    · -- the new round
      subst h2
      have hNt : N + s.histNames.length = s.next_node := next_eq.symm
      rw [hNt, hg_new]
      rw [getD_concat_self]
      have hPidx : s.histNames.length = s.histPairs.length := hist_len.1.symm
      rw [hPidx, getD_concat_self]
      rw [hg_stable _ (nn_lt _ hvii_mem), hg_stable _ (nn_lt _ hvjj_mem)]
  · -- uns_last
    intro hne
    rw [eUns]
    refine ⟨nm, ?_⟩
    rw [eHX]
    have hgetD : (s.histX ++ [M]).getD ((s.histX ++ [M]).length - 1) [] = M := by
      simp only [List.length_append, List.length_singleton, Nat.add_sub_cancel]
      exact getD_concat_self _ _ _
    rw [hgetD]
  · -- last_sq
    intro hne
    rw [eHX, eNN]
    have hgetD : (s.histX ++ [M]).getD ((s.histX ++ [M]).length - 1) [] = M := by
      simp only [List.length_append, List.length_singleton, Nat.add_sub_cancel]
      exact getD_concat_self _ _ _
    rw [hgetD, hlenNN]
    have harith : s.node_names.length - 1 + 1 = s.fates.length := by omega
    rw [harith]
    exact hsq
  · -- length shrinks by one
    rw [eNN]
    exact hlenNN

theorem hInv_step {orc : Oracle α} (hwf : WFOracle orc) {N : Nat} {s : HierState α}
    (hinv : HInv N s) (hlen : 2 < s.node_names.length) :
    HInv N (hierStep orc s).1 ∧ (hierStep orc s).2 = false ∧
      ((hierStep orc s).1).node_names.length = s.node_names.length - 1 := by
  have hsq : Square (orc.mat s.fates) s.fates.length := hwf s.fates
  have hkf3 : 3 ≤ s.fates.length := by
    have h := hinv.len_eq
    omega
  obtain ⟨hij, hjk, hik⟩ := selRow_lt_selCol hsq (by omega)
  have hne : selRow (maskMatrix (orc.mat s.fates)) ≠
      selCol (maskMatrix (orc.mat s.fates)) := Nat.ne_of_lt hij
  have hpermR : (List.range s.fates.length).Perm
      (selRow (maskMatrix (orc.mat s.fates)) :: selCol (maskMatrix (orc.mat s.fates)) ::
        (List.range s.fates.length).filter (fun i =>
          !(i == selRow (maskMatrix (orc.mat s.fates)) ||
            i == selCol (maskMatrix (orc.mat s.fates))))) :=
    perm_cons_cons_filter (List.nodup_range _) (List.mem_range.mpr hik)
      (List.mem_range.mpr hjk) hne
  have h0 : ((List.range s.fates.length).filter (fun i =>
      !(i == selRow (maskMatrix (orc.mat s.fates)) ||
        i == selCol (maskMatrix (orc.mat s.fates))))).length ≠ 0 := by
    have hl := hpermR.length_eq
    simp only [List.length_cons, List.length_range] at hl
    omega
  rw [hierStep_eq_mergeState orc s h0]
  obtain ⟨h1, h2⟩ := hInv_merge hinv hlen (orc.mat s.fates) (orc.names s.fates) hij hjk hsq
  exact ⟨h1, rfl, h2⟩

theorem hInv_loop {orc : Oracle α} (hwf : WFOracle orc) {N : Nat} :
    ∀ (fuel : Nat) (s : HierState α), HInv N s → s.node_names.length ≤ fuel + 2 →
      HInv N (hierLoop orc fuel s) ∧
        (2 ≤ s.node_names.length → (hierLoop orc fuel s).node_names.length = 2) := by
  intro fuel
  induction fuel with
  | zero =>
    intro s hinv hle
    refine ⟨hinv, fun h2 => ?_⟩
    simp only [hierLoop]
    omega
  | succ f ih =>
    intro s hinv hle
    unfold hierLoop
    split
    · rename_i hgt
      obtain ⟨h1, h2, h3⟩ := hInv_step hwf hinv hgt
      rcases hstep : hierStep orc s with ⟨s1, b⟩
      have h1' : HInv N s1 := by rw [hstep] at h1; exact h1
      have h3' : s1.node_names.length = s.node_names.length - 1 := by
        rw [hstep] at h3; exact h3
      have h2' : b = false := by rw [hstep] at h2; exact h2
      subst h2'
      obtain ⟨ha, hb⟩ := ih s1 h1' (by omega)
      exact ⟨ha, fun _ => hb (by omega)⟩
    · rename_i hng
      refine ⟨hinv, fun h2 => ?_⟩
      omega

theorem hierLoop_stop {orc : Oracle α} (fuel : Nat) (s : HierState α)
    (h : ¬ 2 < s.node_names.length) : hierLoop orc fuel s = s := by
  cases fuel
  · rfl
  · unfold hierLoop
    rw [if_neg h]

/-- A successful `fate_hierarchy` run presupposes at least three fates, and its
result comes from a final loop state satisfying the invariant with exactly two
active nodes left. -/
theorem fate_hierarchy_ok_inv {orc : Oracle α} (hwf : WFOracle orc)
    {fs : List (List Nat)} {r : HierResult α}
    (hrun : fate_hierarchy orc fs = .ok r) :
    ∃ sF fnames, r = hierResultOf sF fnames ∧ HInv fs.length sF ∧
      sF.node_names.length = 2 ∧ 3 ≤ fs.length := by
  obtain ⟨fnames, hfn, hr⟩ := fate_hierarchy_ok hrun
  by_cases h3 : 2 < fs.length
  · have hN : 0 < fs.length := by omega
    have hinv0 : HInv fs.length (initState α fs) := hInv_init fs hN
    have hlen0 : (initState α fs).node_names.length ≤ fs.length + 2 := by
      simp [initState]
    obtain ⟨hinvF, hlenF⟩ := hInv_loop hwf fs.length (initState α fs) hinv0 hlen0
    refine ⟨_, fnames, hr, hinvF, hlenF ?_, by omega⟩
    simp only [initState, List.length_range]
    omega
  · exfalso
    have hstop : hierLoop orc fs.length (initState α fs) = initState α fs :=
      hierLoop_stop _ _ (by simp only [initState, List.length_range]; omega)
    rw [hstop] at hfn
    simp [initState] at hfn

/-- C2: in every completing run of `fate_hierarchy`, the node created in round
`t` (node id `N + t`) has a `node_groups` entry equal to the concatenation of
the entries of the two nodes it merged (its two children in `parent_map`,
read off from the recorded round data); every node's leaf list is
duplicate-free; and the two nodes still active at the end — the two children
of the final root — have disjoint leaf lists whose concatenation is a
permutation of the full original leaf set `{0, ..., N-1}`. -/
theorem fate_hierarchy_node_groups_invariants {orc : Oracle α} (hwf : WFOracle orc)
    (fs : List (List Nat)) (r : HierResult α) (hrun : fate_hierarchy orc fs = .ok r) :
    (∀ t, t < r.histNames.length →
        r.node_groups.getD (fs.length + t) [] =
          r.node_groups.getD
            ((r.histNames.getD t []).getD (r.histPairs.getD t (0, 0)).1 0) [] ++
          r.node_groups.getD
            ((r.histNames.getD t []).getD (r.histPairs.getD t (0, 0)).2 0) []) ∧
      (∀ g ∈ r.node_groups, g.Nodup) ∧
      ∃ a b, r.final_node_names = [a, b] ∧
        (r.node_groups.getD a []).Disjoint (r.node_groups.getD b []) ∧
        (r.node_groups.getD a [] ++ r.node_groups.getD b []).Perm
          (List.range fs.length) := by
  obtain ⟨sF, fnames, hr, hinv, hlen2, h3⟩ := fate_hierarchy_ok_inv hwf hrun
  subst hr
  refine ⟨hinv.merge_rec, hinv.groups_nodup, ?_⟩
  obtain ⟨a, b, hab⟩ := List.length_eq_two.mp hlen2
  have hperm2 : (sF.node_groups.getD a [] ++ sF.node_groups.getD b []).Perm
      (List.range fs.length) := by
    have hlp := hinv.leaves_perm
    unfold leavesOf at hlp
    rw [hab] at hlp
    simpa using hlp
  have hnd : (sF.node_groups.getD a [] ++ sF.node_groups.getD b []).Nodup :=
    (hperm2.nodup_iff).mpr (List.nodup_range _)
  exact ⟨a, b, hab, List.disjoint_of_nodup_append hnd, hperm2⟩

/-- C8: after a completing run of `fate_hierarchy`, the keys of `parent_map`
are exactly the node ids `0, ..., root - 1` — each leaf `0..N-1` and each
internal node except the final synthetic root appears exactly once, and the
root (which equals `2N - 2`) is never a key; both nodes still active at
termination have the root as their parent. -/
theorem fate_hierarchy_parent_map_complete {orc : Oracle α} (hwf : WFOracle orc)
    (fs : List (List Nat)) (r : HierResult α) (hrun : fate_hierarchy orc fs = .ok r) :
    (r.parent_map.map Prod.fst).Perm (List.range r.root) ∧
      (∀ n ∈ r.final_node_names, (n, r.root) ∈ r.parent_map) ∧
      r.final_node_names.length = 2 ∧ r.root = 2 * fs.length - 2 := by
  obtain ⟨sF, fnames, hr, hinv, hlen2, h3⟩ := fate_hierarchy_ok_inv hwf hrun
  subst hr
  refine ⟨?_, ?_, hlen2, ?_⟩
  · have hkeys : (hierResultOf sF fnames).parent_map.map Prod.fst =
        sF.parent_map.map Prod.fst ++ sF.node_names := by
      unfold hierResultOf
      simp only [List.map_append, List.map_map, Function.comp_def]
      rw [List.map_id']
    rw [hkeys]
    exact hinv.keys_perm
  · intro n hn
    have hmem : (n, sF.next_node) ∈ sF.node_names.map (fun m => (m, sF.next_node)) :=
      List.mem_map.mpr ⟨n, hn, rfl⟩
    exact List.mem_append.mpr (Or.inr hmem)
  · have h1 := hinv.next_eq
    have h2 := hinv.len_hist
    show sF.next_node = 2 * fs.length - 2
    omega

/-- C10 (frame effect): `fate_hierarchy` mutates the coupling matrix stored by
`fate_coupling` in place.  After a completing run, the matrix at
`adata.uns[f"fate_coupling_{source}"]` is the masked matrix of the final
round: its upper triangle still holds the entries of the final (3 × 3,
symmetric) round matrix — the pre-mask copy kept in the history — while every
entry with `i ≥ j` equals `min - 100`, so the stored matrix is no longer
symmetric. -/
theorem fate_hierarchy_mutates_stored_coupling {orc : Oracle α} (hwf : WFOracle orc)
    (fs : List (List Nat)) (r : HierResult α) (hrun : fate_hierarchy orc fs = .ok r) :
    ∃ nm, r.histX ≠ [] ∧
      r.uns = some (maskMatrix (r.histX.getD (r.histX.length - 1) []), nm) ∧
      (∀ i j, j ≤ i → i < 3 → j < 3 →
        entry (maskMatrix (r.histX.getD (r.histX.length - 1) [])) i j =
          matMin (r.histX.getD (r.histX.length - 1) []) - 100) ∧
      (∀ i j, i < j → j < 3 →
        entry (maskMatrix (r.histX.getD (r.histX.length - 1) [])) i j =
          entry (r.histX.getD (r.histX.length - 1) []) i j) ∧
      entry (maskMatrix (r.histX.getD (r.histX.length - 1) [])) 0 1 ≠
        entry (maskMatrix (r.histX.getD (r.histX.length - 1) [])) 1 0 := by
  obtain ⟨sF, fnames, hr, hinv, hlen2, h3⟩ := fate_hierarchy_ok_inv hwf hrun
  subst hr
  simp only [hierResultOf]
  have hxlen : sF.histX.length + 2 = fs.length := by
    have ha := hinv.hist_len.2
    have hb := hinv.len_hist
    omega
  have hne : sF.histX ≠ [] := by
    intro hnil
    rw [hnil] at hxlen
    simp at hxlen
    omega
  obtain ⟨nm, huns⟩ := hinv.uns_last hne
  have hsq3 : Square (sF.histX.getD (sF.histX.length - 1) []) 3 := by
    have hs := hinv.last_sq hne
    rw [hlen2] at hs
    exact hs
  refine ⟨nm, hne, huns, ?_, ?_, ?_⟩
  · intro i j hji hi hj
    rw [maskMatrix_entry hsq3 hi hj, if_pos hji]
  · intro i j hij hj
    rw [maskMatrix_entry hsq3 (lt_trans hij hj) hj, if_neg (by omega)]
  · rw [maskMatrix_entry hsq3 (show (0 : Nat) < 3 by omega) (show (1 : Nat) < 3 by omega),
      maskMatrix_entry hsq3 (show (1 : Nat) < 3 by omega) (show (0 : Nat) < 3 by omega),
      if_neg (by omega), if_pos (by omega)]
    exact (floor_lt_entry hsq3 0 1 (by omega) (by omega)).ne'

/-- C3 (code bug): the entry guard of `fate_hierarchy` accepts any nonempty
list (`len(selected_fates) > 0`), so a single fate does not raise the
invalid-selection `ValueError`; and for one or two fates the merge loop never
runs, the local `fate_names` is never assigned, and the function dies with
Python's `UnboundLocalError` instead of completing — contradicting both the
guard's own error message ("more than one elements") and the claim that any
list with at least 2 entries completes and writes the hierarchy result. -/
theorem fate_hierarchy_small_input_behavior :
    fate_hierarchy orc3 [[0], [1]] = .error .unboundFateNames ∧
      fate_hierarchy orc3 [[0]] = .error .unboundFateNames ∧
      fate_hierarchy orc3 [] = .error .invalidSelection :=
  ⟨rfl, rfl, rfl⟩

instance instDecEqExcept {ε σ : Type} [DecidableEq ε] [DecidableEq σ] :
    DecidableEq (Except ε σ) := fun a b =>
  match a, b with
  | .ok x, .ok y =>
    if h : x = y then .isTrue (congrArg Except.ok h)
    else .isFalse (fun hc => h (Except.ok.inj hc))
  | .error x, .error y =>
    if h : x = y then .isTrue (congrArg Except.error h)
    else .isFalse (fun hc => h (Except.error.inj hc))
  | .ok _, .error _ => .isFalse (fun hc => Except.noConfusion hc)
  | .error _, .ok _ => .isFalse (fun hc => Except.noConfusion hc)

theorem wf3 : WFOracle orc3 := by
  intro fs
  by_cases h : fs = [[0], [1], [2]]
  · subst h
    exact ⟨by decide, by decide⟩
  · show Square (if fs = [[0], [1], [2]] then _ else fs.map (fun _ => fs.map (fun _ => (0 : ℤ)))) fs.length
    rw [if_neg h]
    constructor
    · simp
    · intro row hrow
      simp only [List.mem_map] at hrow
      obtain ⟨x, -, rfl⟩ := hrow
      simp

/-- The result of running `fate_hierarchy` on the three-fate witness oracle. -/
def r3 : HierResult ℤ :=
  match fate_hierarchy orc3 [[0], [1], [2]] with
  | .ok r => r
  | .error _ => hierResultOf (initState ℤ []) []

theorem fate_hierarchy_two_step_selection_witness :
    r3.histPairs.getD 0 (0, 0) = twoStepPair (maskMatrix (r3.histX.getD 0 [])) :=
  (fate_hierarchy_two_step_selection orc3 [[0], [1], [2]] r3 (by decide)).1 0 (by decide)

theorem fate_hierarchy_node_groups_invariants_witness :
    (r3.node_groups.getD 3 []).Nodup :=
  (fate_hierarchy_node_groups_invariants wf3 [[0], [1], [2]] r3 (by decide)).2.1
    (r3.node_groups.getD 3 []) (by decide)

theorem fate_hierarchy_parent_map_complete_witness :
    (3, r3.root) ∈ r3.parent_map :=
  (fate_hierarchy_parent_map_complete wf3 [[0], [1], [2]] r3 (by decide)).2.1 3 (by decide)

theorem fate_hierarchy_mutates_stored_coupling_witness :
    entry (maskMatrix (r3.histX.getD (r3.histX.length - 1) [])) 0 1 ≠
      entry (maskMatrix (r3.histX.getD (r3.histX.length - 1) [])) 1 0 := by
  obtain ⟨nm, -, -, -, -, h5⟩ :=
    fate_hierarchy_mutates_stored_coupling wf3 [[0], [1], [2]] r3 (by decide)
  exact h5

/-- Generic indexed scatter, numpy's `target[ids] = vals`: write `vals[t]` at
position `ids[t]` in order, later writes winning.  An out-of-range index is
ignored (`List.set` is a no-op there; numpy would raise — in-range use is
established separately), and surplus entries of either list are ignored
(numpy requires the lengths to match). -/
def writeVals {β : Type} : List β → List Nat → List β → List β
  | acc, [], _ => acc
  | acc, i :: is, vs =>
    match vs with
    | [] => acc
    | v :: vs => writeVals (acc.set i v) is vs

theorem writeVals_length {β : Type} : ∀ (acc : List β) (is : List Nat) (vs : List β),
    (writeVals acc is vs).length = acc.length := by
  intro acc is
  induction is generalizing acc with
  | nil => intro vs; simp only [writeVals]
  | cons i is ih =>
    intro vs
    cases vs with
    | nil => simp only [writeVals]
    | cons v vs =>
      rw [writeVals, ih, List.length_set]

theorem writeVals_getD_not_mem {β : Type} :
    ∀ (acc : List β) (is : List Nat) (vs : List β) (c : Nat) (d : β), c ∉ is →
      (writeVals acc is vs).getD c d = acc.getD c d := by
  intro acc is
  induction is generalizing acc with
  | nil => intro vs c d _; simp only [writeVals]
  | cons i is ih =>
    intro vs c d hc
    cases vs with
    | nil => simp only [writeVals]
    | cons v vs =>
      rw [writeVals, ih _ _ _ _ (fun h => hc (List.mem_cons_of_mem _ h))]
      have hci : c ≠ i := fun h => hc (h ▸ List.mem_cons_self _ _)
      rw [List.getD_eq_getElem?_getD, List.getD_eq_getElem?_getD,
        List.getElem?_set_ne (Ne.symm hci)]

theorem writeVals_getD_at {β : Type} :
    ∀ (acc : List β) (is : List Nat) (vs : List β) (d : β), is.Nodup →
      is.length ≤ vs.length → ∀ p, p < is.length → is.getD p 0 < acc.length →
      (writeVals acc is vs).getD (is.getD p 0) d = vs.getD p d := by
  intro acc is
  induction is generalizing acc with
  | nil => intro vs d _ _ p hp; simp at hp
  | cons i is ih =>
    intro vs d hnd hlen p hp hb
    cases vs with
    | nil => simp at hlen
    | cons v vs =>
      rw [writeVals]
      cases p with
      | zero =>
        have hnot : i ∉ is := (List.nodup_cons.mp hnd).1
        rw [show (i :: is).getD 0 0 = i from rfl] at hb ⊢
        rw [writeVals_getD_not_mem _ _ _ _ _ hnot]
        rw [List.getD_eq_getElem?_getD, List.getElem?_set_self (by omega)]
        rfl
      | succ q =>
        rw [show (i :: is).getD (q + 1) 0 = is.getD q 0 from rfl] at hb ⊢
        rw [ih _ _ _ (List.nodup_cons.mp hnd).2 (by simpa using hlen) q
          (by simpa using hp) (by simpa using hb)]
        rfl

theorem writeVals_mem {β : Type} :
    ∀ (acc : List β) (is : List Nat) (vs : List β) (x : β),
      x ∈ writeVals acc is vs → x ∈ acc ∨ x ∈ vs := by
  intro acc is
  induction is generalizing acc with
  | nil =>
    intro vs x hx
    rw [writeVals] at hx
    exact Or.inl hx
  | cons i is ih =>
    intro vs x hx
    cases vs with
    | nil =>
      rw [writeVals] at hx
      exact Or.inl hx
    | cons v vs =>
      rw [writeVals] at hx
      rcases ih _ _ _ hx with h | h
      · rcases List.mem_or_eq_of_mem_set h with h2 | h2
        · exact Or.inl h2
        · exact Or.inr (h2 ▸ List.mem_cons_self _ _)
      · exact Or.inr (List.mem_cons_of_mem _ h)

/-- Output of the external `compute_fate_probability_map` (defined in
`cospar/tool/_utils.py`, outside this file's source): the fate-probability
matrix whose rows follow `cell_id_t1`, the resolved mega-cluster names, and
the per-cell fate entropy. -/
structure FPMOut where
  fateMap : List (List ℚ)
  megaClusterList : List String
  fateEntropy : List ℚ
  deriving DecidableEq

/-- What `fate_map` writes into `adata` (lines 357-373 of `_map.py`):
per-fate obs columns, the parameter record at `adata.uns[f"fate_map_{source}"]`,
the potency vector at `adata.uns["fate_potency"]`, and whether the
no-cells-selected error was logged (`logg.error`, not an exception).  Columns
are keyed by the mega-cluster name — Python prefixes `f"fate_map_{source}_"`,
constant within a run, so keying by the name alone is equivalent.  Column
entries are `Option ℚ`, with `none` for the `np.nan` prefill of cells outside
`cell_id_t1`. -/
structure FateMapOut where
  obsCols : List (String × List (Option ℚ))
  unsParams : Option (Bool × String)
  fatePotency : Option (List (Option ℚ))
  loggedError : Bool
  deriving DecidableEq

/-- Lines 360-363 of `_map.py`: `temp_map = np.zeros(n) + np.nan;
temp_map[cell_id] = fate_map[:, j]`. -/
def scatterCol (n : Nat) (ids : List Nat) (vals : List ℚ) : List (Option ℚ) :=
  writeVals (List.replicate n none) ids (vals.map some)

/-- The post-computation body of `fate_map` (lines 357-371): if no
mega-cluster was resolved, log an error and write nothing; otherwise scatter
each fate-map column over `cell_id` into a per-fate obs column, record the
parameters, and scatter the potency vector. -/
def fateMapWrites (n : Nat) (cellId : List Nat) (mapBackward : Bool)
    (method : String) (fpm : FPMOut) : FateMapOut :=
  if fpm.megaClusterList.length = 0 then
    { obsCols := [], unsParams := none, fatePotency := none, loggedError := true }
  else
    { obsCols := fpm.megaClusterList.enum.map (fun p =>
        (p.2, scatterCol n cellId (fpm.fateMap.map (fun row => row.getD p.1 0))))
      unsParams := some (mapBackward, method)
      fatePotency := some (writeVals (List.replicate n none) cellId
        (fpm.fateEntropy.map some))
      loggedError := false }

/-- Shallow embedding of `fate_map` (lines 265-373 of `_map.py`).  An unknown
`source` raises a `ValueError`; zero resolved mega-clusters only logs an
error and returns with no writes.  `cell_id_t1`/`cell_id_t2` and the output of
`compute_fate_probability_map` are inputs (the latter an oracle for code
outside this file's source). -/
def fate_map (availableMap : List String) (source : String) (n : Nat)
    (cellIdT1 cellIdT2 : List Nat) (mapBackward : Bool) (method : String)
    (fpm : FPMOut) : Except MapErr FateMapOut :=
  if source ∉ availableMap then .error .unknownSource
  else .ok (fateMapWrites n (if mapBackward then cellIdT1 else cellIdT2)
    mapBackward method fpm)

/-- Reading `adata.obs[key]` for a written fate-map column. -/
def lookupCol (cols : List (String × List (Option ℚ))) (key : String) :
    List (Option ℚ) :=
  match cols.find? (fun p => p.1 == key) with
  | some p => p.2
  | none => []

/-- The inputs of the bias computation of `fate_bias` after its `fate_map`
call: the two fate-map obs columns as read back, the cell-id gather list, and
the threshold and (already zero-replaced) pseudo-count. -/
structure BiasCtx where
  n : Nat
  cellId : List Nat
  col1 : List (Option ℚ)
  col2 : List (Option ℚ)
  thresh : ℚ
  pc : ℚ
  deriving DecidableEq

/-- Line 503-505: `fate_vector_1 = np.array(adata.obs[col1])[cell_id_t1]`.
The `Option.getD 0` fallback models reading a `NaN` cell and is never
exercised for valid index arrays (those positions were all written). -/
def biasFv1 (c : BiasCtx) : List ℚ := c.cellId.map (fun i => (c.col1.getD i none).getD 0)

def biasFv2 (c : BiasCtx) : List ℚ := c.cellId.map (fun i => (c.col2.getD i none).getD 0)

/-- Line 509: `add_count = pseudo_count * np.max([fate_vector_1, fate_vector_2])`. -/
def biasAddCount (c : BiasCtx) : ℚ := c.pc * listMax (biasFv1 c ++ biasFv2 c)

/-- Lines 510-511: add the pseudo-count to both vectors. -/
def biasW1 (c : BiasCtx) : List ℚ := (biasFv1 c).map (· + biasAddCount c)

def biasW2 (c : BiasCtx) : List ℚ := (biasFv2 c).map (· + biasAddCount c)

/-- Line 513: `tot_prob = fate_vector_1 + fate_vector_2` (after the additions). -/
def biasTot (c : BiasCtx) : List ℚ := List.zipWith (· + ·) (biasW1 c) (biasW2 c)

/-- Line 514: `valid_idx = tot_prob > sum_fate_prob_thresh`, as the list of
positions where the mask is true. -/
def biasValidPos (c : BiasCtx) : List Nat :=
  (List.range c.cellId.length).filter (fun t => decide (c.thresh < (biasTot c).getD t 0))

/-- Lines 515-518: `temp_map = np.zeros(n) + 0.5;
temp_map[cell_id_t1[valid_idx]] = fate_vector_1[valid_idx] / tot_prob[valid_idx]`. -/
def biasColumn (c : BiasCtx) : List ℚ :=
  writeVals (List.replicate c.n ((1 : ℚ)/2))
    ((biasValidPos c).map (fun t => c.cellId.getD t 0))
    ((biasValidPos c).map (fun t => (biasW1 c).getD t 0 / (biasTot c).getD t 0))

/-- What `fate_bias` writes (lines 517-523): the per-cell bias column keyed
`f"fate_bias_{source}_{A}*{B}"`, and the parameter record. -/
structure BiasOut where
  biasCol : List ℚ
  colKey : String
  unsParams : Option (Bool × String)
  deriving DecidableEq

/-- Shallow embedding of `fate_bias` (lines 407-524 of `_map.py`).  `mega` is
the mega-cluster list resolved by the external `analyze_selected_fates`
(line 477-482); `fpm` is the oracle output of `compute_fate_probability_map`
used by the inner `fate_map` call — both resolve the same `selected_fates`
against the same annotation, and the theorems assume their consistency
(`fpm.megaClusterList = mega`) where the written columns are read back. -/
def fate_bias (availableMap : List String) (source : String) (n : Nat)
    (cellIdT1 cellIdT2 : List Nat) (mapBackward : Bool) (method : String)
    (mega : List String) (fpm : FPMOut)
    (sumFateProbThresh pseudoCount : ℚ) : Except MapErr BiasOut :=
  if mega.length ≠ 2 then .error .invalidFateCount
  else
    match fate_map availableMap source n cellIdT1 cellIdT2 mapBackward method fpm with
    | .error e => .error e
    | .ok mw =>
      .ok { biasCol := biasColumn
              { n := n
                cellId := if mapBackward then cellIdT1 else cellIdT2
                col1 := lookupCol mw.obsCols (mega.getD 0 "")
                col2 := lookupCol mw.obsCols (mega.getD 1 "")
                thresh := sumFateProbThresh
                pc := if pseudoCount = 0 then (1 : ℚ) / 10 ^ 10 else pseudoCount }
            colKey := mega.getD 0 "" ++ "*" ++ mega.getD 1 ""
            unsParams := some (mapBackward, method) }

/-- C4 counterexample: with a fate resolution yielding zero mega-clusters,
`fate_map` returns normally — no exception is raised — after merely logging an
error; the claim that it raises a `NoValidCells` error at the start is false.
(No per-fate column, parameter record or potency vector is written either.) -/
theorem fate_map_zero_clusters_counterexample :
    fate_map ["transition_map"] "transition_map" 2 [0] [1] true "norm-sum"
        { fateMap := [], megaClusterList := [], fateEntropy := [] } =
      .ok { obsCols := [], unsParams := none, fatePotency := none,
            loggedError := true } := rfl

/-- C4 amended: when the selected fates resolve to zero mega-clusters (and the
source is a known map), `fate_map` logs an error — after the probability-map
computation, not at entry — and returns without raising an exception, writing
no per-fate columns, no parameter record and no potency vector.  (`fate_map`
takes no time-window argument at all, so the claim's time-window case does not
arise.) -/
theorem fate_map_zero_clusters_soft_abort
    (availableMap : List String) (source : String) (n : Nat)
    (cellIdT1 cellIdT2 : List Nat) (mapBackward : Bool) (method : String)
    (fpm : FPMOut) (hsrc : source ∈ availableMap)
    (hmega : fpm.megaClusterList.length = 0) :
    fate_map availableMap source n cellIdT1 cellIdT2 mapBackward method fpm =
      .ok { obsCols := [], unsParams := none, fatePotency := none,
            loggedError := true } := by
  unfold fate_map fateMapWrites
  rw [if_neg (fun h => h hsrc), if_pos hmega]

theorem fate_map_zero_clusters_soft_abort_witness :
    fate_map ["transition_map"] "transition_map" 1 [0] [] true "norm-sum"
        { fateMap := [], megaClusterList := [], fateEntropy := [] } =
      .ok { obsCols := [], unsParams := none, fatePotency := none,
            loggedError := true } :=
  fate_map_zero_clusters_soft_abort _ _ _ _ _ _ _ _ (List.mem_cons_self _ _) rfl

/-- C7: `fate_bias` raises the invalid-fate-count `ValueError` exactly when
the number of resolved mega-clusters differs from 2.  The check (line 484) is
the first thing after the resolution, before the `fate_map` call and before
anything is written; the error return carries no writes. -/
theorem fate_bias_requires_two_fates (availableMap : List String) (source : String)
    (n : Nat) (cellIdT1 cellIdT2 : List Nat) (mapBackward : Bool) (method : String)
    (mega : List String) (fpm : FPMOut) (thresh pc : ℚ) :
    (mega.length ≠ 2 →
      fate_bias availableMap source n cellIdT1 cellIdT2 mapBackward method mega fpm
        thresh pc = .error .invalidFateCount) ∧
    (fate_bias availableMap source n cellIdT1 cellIdT2 mapBackward method mega fpm
        thresh pc = .error .invalidFateCount → mega.length ≠ 2) := by
  constructor
  · intro h
    unfold fate_bias
    rw [if_pos h]
  · intro h heq
    unfold fate_bias at h
    rw [if_neg (fun hne => hne heq)] at h
    rcases hfm : fate_map availableMap source n cellIdT1 cellIdT2 mapBackward method fpm
      with e | mw
    · rw [hfm] at h
      have h2 : (Except.error e : Except MapErr BiasOut) =
          .error .invalidFateCount := h
      have he : e = .invalidFateCount := Except.error.inj h2
      unfold fate_map at hfm
      by_cases hs : source ∉ availableMap
      · rw [if_pos hs] at hfm
        have h3 : MapErr.unknownSource = e := Except.error.inj hfm
        rw [← h3] at he
        cases he
      · rw [if_neg hs] at hfm
        exact Except.noConfusion hfm
    · rw [hfm] at h
      exact Except.noConfusion
        (h : (Except.ok _ : Except MapErr BiasOut) = .error .invalidFateCount)

theorem fate_bias_requires_two_fates_witness :
    fate_bias ["transition_map"] "transition_map" 1 [0] [] true "norm-sum" ["A"]
        { fateMap := [], megaClusterList := [], fateEntropy := [] } (1/20) 0 =
      .error .invalidFateCount ∧
    fate_bias ["transition_map"] "transition_map" 1 [0] [] true "norm-sum"
        ["A", "B", "C"]
        { fateMap := [], megaClusterList := [], fateEntropy := [] } (1/20) 0 =
      .error .invalidFateCount :=
  ⟨(fate_bias_requires_two_fates _ _ _ _ _ _ _ _ _ _ _).1 (by decide),
   (fate_bias_requires_two_fates _ _ _ _ _ _ _ _ _ _ _).1 (by decide)⟩

theorem scatterCol_getD_at (n : Nat) (ids : List Nat) (vals : List ℚ)
    (hnd : ids.Nodup) (hlen : ids.length ≤ vals.length) (p : Nat)
    (hp : p < ids.length) (hb : ids.getD p 0 < n) :
    (scatterCol n ids vals).getD (ids.getD p 0) none = some (vals.getD p 0) := by
  unfold scatterCol
  rw [writeVals_getD_at _ _ _ _ hnd (by simpa using hlen) p hp (by simpa using hb)]
  have hpv : p < vals.length := lt_of_lt_of_le hp hlen
  rw [List.getD_eq_getElem _ _ (by simpa using hpv), List.getElem_map,
    List.getD_eq_getElem _ _ hpv]

/-- Column `j` of the fate-probability matrix, `fate_map[:, j]`. -/
def fpmCol (fpm : FPMOut) (j : Nat) : List ℚ :=
  fpm.fateMap.map (fun row => row.getD j 0)

/-- Entry `P[t, j]` of the fate-probability matrix. -/
def fpmEntry (fpm : FPMOut) (t j : Nat) : ℚ := (fpm.fateMap.getD t []).getD j 0

theorem fpmCol_getD (fpm : FPMOut) (j t : Nat) (ht : t < fpm.fateMap.length) :
    (fpmCol fpm j).getD t 0 = fpmEntry fpm t j := by
  unfold fpmCol fpmEntry
  rw [List.getD_eq_getElem _ _ (by simpa using ht), List.getElem_map,
    List.getD_eq_getElem _ _ ht]

/-- The bias context arising from a consistent `fate_bias` run: both columns
are the fate-map columns scattered over the same cell-id list. -/
def mkBiasCtx (n : Nat) (cid : List Nat) (v0 v1 : List ℚ) (thresh pc' : ℚ) : BiasCtx :=
  { n := n, cellId := cid, col1 := scatterCol n cid v0, col2 := scatterCol n cid v1,
    thresh := thresh, pc := pc' }

theorem mkBiasCtx_fv1 (n : Nat) (cid : List Nat) (v0 v1 : List ℚ) (thresh pc' : ℚ)
    (hn : cid.Nodup) (hb : ∀ i ∈ cid, i < n) (hl0 : v0.length = cid.length) :
    biasFv1 (mkBiasCtx n cid v0 v1 thresh pc') = v0 := by
  apply List.ext_getElem
  · simp [biasFv1, mkBiasCtx, hl0]
  · intro t h1 h2
    have htc : t < cid.length := by simpa [biasFv1, mkBiasCtx] using h1
    have hgd : cid.getD t 0 = cid[t] := List.getD_eq_getElem _ _ htc
    simp only [biasFv1, mkBiasCtx, List.getElem_map]
    rw [← hgd, scatterCol_getD_at n cid v0 hn (by omega) t htc
      (hb _ (hgd ▸ List.getElem_mem htc))]
    rw [Option.getD_some, List.getD_eq_getElem _ _ (by omega)]

theorem mkBiasCtx_fv2 (n : Nat) (cid : List Nat) (v0 v1 : List ℚ) (thresh pc' : ℚ)
    (hn : cid.Nodup) (hb : ∀ i ∈ cid, i < n) (hl1 : v1.length = cid.length) :
    biasFv2 (mkBiasCtx n cid v0 v1 thresh pc') = v1 := by
  apply List.ext_getElem
  · simp [biasFv2, mkBiasCtx, hl1]
  · intro t h1 h2
    have htc : t < cid.length := by simpa [biasFv2, mkBiasCtx] using h1
    have hgd : cid.getD t 0 = cid[t] := List.getD_eq_getElem _ _ htc
    simp only [biasFv2, mkBiasCtx, List.getElem_map]
    rw [← hgd, scatterCol_getD_at n cid v1 hn (by omega) t htc
      (hb _ (hgd ▸ List.getElem_mem htc))]
    rw [Option.getD_some, List.getD_eq_getElem _ _ (by omega)]

theorem mkBiasCtx_tot (n : Nat) (cid : List Nat) (v0 v1 : List ℚ) (thresh pc' : ℚ)
    (hn : cid.Nodup) (hb : ∀ i ∈ cid, i < n)
    (hl0 : v0.length = cid.length) (hl1 : v1.length = cid.length)
    (t : Nat) (ht : t < cid.length) :
    (biasTot (mkBiasCtx n cid v0 v1 thresh pc')).getD t 0 =
      v0.getD t 0 + v1.getD t 0 + 2 * (pc' * listMax (v0 ++ v1)) := by
  have hfv1 := mkBiasCtx_fv1 n cid v0 v1 thresh pc' hn hb hl0
  have hfv2 := mkBiasCtx_fv2 n cid v0 v1 thresh pc' hn hb hl1
  have hadd : biasAddCount (mkBiasCtx n cid v0 v1 thresh pc') =
      pc' * listMax (v0 ++ v1) := by
    unfold biasAddCount
    rw [hfv1, hfv2]
    rfl
  unfold biasTot biasW1 biasW2
  rw [hfv1, hfv2, hadd]
  have hzl : t < (List.zipWith (· + ·) (v0.map (· + pc' * listMax (v0 ++ v1)))
      (v1.map (· + pc' * listMax (v0 ++ v1)))).length := by
    simp [hl0, hl1]
    omega
  rw [List.getD_eq_getElem _ _ hzl, List.getElem_zipWith, List.getElem_map,
    List.getElem_map, List.getD_eq_getElem _ _ (by omega),
    List.getD_eq_getElem _ _ (by omega)]
  ring

theorem mkBiasCtx_w1 (n : Nat) (cid : List Nat) (v0 v1 : List ℚ) (thresh pc' : ℚ)
    (hn : cid.Nodup) (hb : ∀ i ∈ cid, i < n)
    (hl0 : v0.length = cid.length) (hl1 : v1.length = cid.length)
    (t : Nat) (ht : t < cid.length) :
    (biasW1 (mkBiasCtx n cid v0 v1 thresh pc')).getD t 0 =
      v0.getD t 0 + pc' * listMax (v0 ++ v1) := by
  have hfv1 := mkBiasCtx_fv1 n cid v0 v1 thresh pc' hn hb hl0
  have hfv2 := mkBiasCtx_fv2 n cid v0 v1 thresh pc' hn hb hl1
  have hadd : biasAddCount (mkBiasCtx n cid v0 v1 thresh pc') =
      pc' * listMax (v0 ++ v1) := by
    unfold biasAddCount
    rw [hfv1, hfv2]
    rfl
  unfold biasW1
  rw [hfv1, hadd]
  rw [List.getD_eq_getElem _ _ (by simpa [hl0] using ht), List.getElem_map,
    List.getD_eq_getElem _ _ (by omega)]

theorem biasValidPos_mem (c : BiasCtx) (t : Nat) :
    t ∈ biasValidPos c ↔ t < c.cellId.length ∧ c.thresh < (biasTot c).getD t 0 := by
  unfold biasValidPos
  rw [List.mem_filter, List.mem_range, decide_eq_true_eq]

/-- The per-cell vector written by `fate_bias`, at the cell of subset position
`t`: the bias ratio when the (pseudo-count augmented) combined probability
passes the threshold, the neutral `1/2` otherwise. -/
theorem biasColumn_read (n : Nat) (cid : List Nat) (v0 v1 : List ℚ) (thresh pc' : ℚ)
    (hn : cid.Nodup) (hb : ∀ i ∈ cid, i < n)
    (hl0 : v0.length = cid.length) (hl1 : v1.length = cid.length)
    (t : Nat) (ht : t < cid.length) :
    (thresh < v0.getD t 0 + v1.getD t 0 + 2 * (pc' * listMax (v0 ++ v1)) →
      (biasColumn (mkBiasCtx n cid v0 v1 thresh pc')).getD (cid.getD t 0) 0 =
        (v0.getD t 0 + pc' * listMax (v0 ++ v1)) /
        (v0.getD t 0 + v1.getD t 0 + 2 * (pc' * listMax (v0 ++ v1)))) ∧
    (¬ thresh < v0.getD t 0 + v1.getD t 0 + 2 * (pc' * listMax (v0 ++ v1)) →
      (biasColumn (mkBiasCtx n cid v0 v1 thresh pc')).getD (cid.getD t 0) 0 = 1/2) := by
  set c := mkBiasCtx n cid v0 v1 thresh pc' with hc
  have hcid : c.cellId = cid := rfl
  have hcth : c.thresh = thresh := rfl
  have htot := mkBiasCtx_tot n cid v0 v1 thresh pc' hn hb hl0 hl1 t ht
  have hw1 := mkBiasCtx_w1 n cid v0 v1 thresh pc' hn hb hl0 hl1 t ht
  have hvp_sub : ∀ x ∈ biasValidPos c, x < cid.length := by
    intro x hx
    exact ((biasValidPos_mem c x).mp hx).1
  have hnodup_ids : ((biasValidPos c).map (fun x => c.cellId.getD x 0)).Nodup := by
    refine List.Nodup.map_on ?_ ((List.nodup_range _).filter _)
    intro x hx y hy hxy
    have hx' : x < cid.length := hvp_sub x hx
    have hy' : y < cid.length := hvp_sub y hy
    rw [hcid, List.getD_eq_getElem _ _ hx', List.getD_eq_getElem _ _ hy'] at hxy
    exact (hn.getElem_inj_iff).mp hxy
  constructor
  · -- the retained case
    intro hvalid
    have htmem : t ∈ biasValidPos c := by
      rw [biasValidPos_mem, hcid, hcth, htot]
      exact ⟨ht, hvalid⟩
    obtain ⟨p, hp, hpt⟩ := List.getElem_of_mem htmem
    have hplen : p < ((biasValidPos c).map (fun x => c.cellId.getD x 0)).length := by
      simpa using hp
    have hids_p : ((biasValidPos c).map (fun x => c.cellId.getD x 0)).getD p 0 =
        cid.getD t 0 := by
      rw [List.getD_eq_getElem _ _ hplen, List.getElem_map]
      rw [show (biasValidPos c)[p] = t from hpt, hcid]
    have hvs_p : ((biasValidPos c).map (fun x =>
        (biasW1 c).getD x 0 / (biasTot c).getD x 0)).getD p 0 =
        (biasW1 c).getD t 0 / (biasTot c).getD t 0 := by
      rw [List.getD_eq_getElem _ _ (by simpa using hp), List.getElem_map]
      rw [show (biasValidPos c)[p] = t from hpt]
    have hbnd : ((biasValidPos c).map (fun x => c.cellId.getD x 0)).getD p 0 <
        (List.replicate c.n ((1 : ℚ)/2)).length := by
      rw [hids_p, List.length_replicate]
      have : cid.getD t 0 ∈ cid := by
        rw [List.getD_eq_getElem _ _ ht]
        exact List.getElem_mem ht
      exact hb _ this
    have := writeVals_getD_at (List.replicate c.n ((1 : ℚ)/2))
      ((biasValidPos c).map (fun x => c.cellId.getD x 0))
      ((biasValidPos c).map (fun x => (biasW1 c).getD x 0 / (biasTot c).getD x 0))
      0 hnodup_ids (by simp) p (by simpa using hp) hbnd
    unfold biasColumn
    rw [← hids_p, this, hvs_p, hw1, htot]
  · -- the excluded case: this cell is not among the written positions
    intro hinvalid
    have hnotmem : cid.getD t 0 ∉
        (biasValidPos c).map (fun x => c.cellId.getD x 0) := by
      intro hmem
      obtain ⟨x, hx, hxe⟩ := List.mem_map.mp hmem
      have hx' : x < cid.length := hvp_sub x hx
      have hxt : x = t := by
        rw [hcid, List.getD_eq_getElem _ _ hx', List.getD_eq_getElem _ _ ht] at hxe
        exact (hn.getElem_inj_iff).mp hxe
      subst hxt
      have := ((biasValidPos_mem c x).mp hx).2
      rw [hcth, htot] at this
      exact hinvalid this
    unfold biasColumn
    rw [writeVals_getD_not_mem _ _ _ _ _ hnotmem]
    have hbt : cid.getD t 0 < c.n := by
      have : cid.getD t 0 ∈ cid := by
        rw [List.getD_eq_getElem _ _ ht]
        exact List.getElem_mem ht
      exact hb _ this
    rw [List.getD_eq_getElem _ _ (by simpa using hbt), List.getElem_replicate]

/-- Cells outside the originating subset are left at the neutral value. -/
theorem biasColumn_outside (n : Nat) (cid : List Nat) (v0 v1 : List ℚ)
    (thresh pc' : ℚ) (x : Nat) (hx : x < n) (hmem : x ∉ cid) :
    (biasColumn (mkBiasCtx n cid v0 v1 thresh pc')).getD x 0 = 1/2 := by
  set c := mkBiasCtx n cid v0 v1 thresh pc' with hc
  have hnotmem : x ∉ (biasValidPos c).map (fun t => c.cellId.getD t 0) := by
    intro hm
    obtain ⟨t, htv, hte⟩ := List.mem_map.mp hm
    have ht' : t < cid.length := ((biasValidPos_mem c t).mp htv).1
    apply hmem
    rw [← hte]
    show cid.getD t 0 ∈ cid
    rw [List.getD_eq_getElem _ _ ht']
    exact List.getElem_mem ht'
  unfold biasColumn
  rw [writeVals_getD_not_mem _ _ _ _ _ hnotmem]
  rw [List.getD_eq_getElem _ _ (by simpa using hx), List.getElem_replicate]

/-- Every entry of the written bias vector is the neutral `1/2` or a ratio
whose denominator is the threshold-passing total — strictly positive whenever
the threshold is nonnegative. -/
theorem biasColumn_members (c : BiasCtx) (hthresh : 0 ≤ c.thresh) :
    (∀ t ∈ biasValidPos c, 0 < (biasTot c).getD t 0) ∧
    ∀ x ∈ biasColumn c, x = 1/2 ∨ ∃ t, t ∈ biasValidPos c ∧
      0 < (biasTot c).getD t 0 ∧ x = (biasW1 c).getD t 0 / (biasTot c).getD t 0 := by
  have hpos : ∀ t ∈ biasValidPos c, 0 < (biasTot c).getD t 0 := by
    intro t ht
    have := ((biasValidPos_mem c t).mp ht).2
    linarith
  refine ⟨hpos, ?_⟩
  intro x hx
  rcases writeVals_mem _ _ _ _ hx with h | h
  · exact Or.inl (List.eq_of_mem_replicate h)
  · obtain ⟨t, ht, hte⟩ := List.mem_map.mp h
    exact Or.inr ⟨t, ht, hpos t ht, hte.symm⟩

/-- Any successful `fate_bias` run produces the `biasColumn` of some context
carrying the caller's threshold (no consistency assumptions needed). -/
theorem fate_bias_ok_ctx (availableMap : List String) (source : String) (n : Nat)
    (cellIdT1 cellIdT2 : List Nat) (mapBackward : Bool) (method : String)
    (mega : List String) (fpm : FPMOut) (sumFateProbThresh pseudoCount : ℚ)
    (out : BiasOut)
    (hrun : fate_bias availableMap source n cellIdT1 cellIdT2 mapBackward method
      mega fpm sumFateProbThresh pseudoCount = .ok out) :
    ∃ c : BiasCtx, c.thresh = sumFateProbThresh ∧ out.biasCol = biasColumn c := by
  unfold fate_bias at hrun
  by_cases hm : mega.length ≠ 2
  · rw [if_pos hm] at hrun
    exact absurd hrun (by simp)
  · rw [if_neg hm] at hrun
    unfold fate_map at hrun
    by_cases hs : source ∉ availableMap
    · rw [if_pos hs] at hrun
      exact absurd hrun (by simp)
    · rw [if_neg hs] at hrun
      have hout := Except.ok.inj hrun
      refine ⟨{ n := n
                cellId := if mapBackward then cellIdT1 else cellIdT2
                col1 := lookupCol (fateMapWrites n
                  (if mapBackward then cellIdT1 else cellIdT2) mapBackward method
                  fpm).obsCols (mega.getD 0 "")
                col2 := lookupCol (fateMapWrites n
                  (if mapBackward then cellIdT1 else cellIdT2) mapBackward method
                  fpm).obsCols (mega.getD 1 "")
                thresh := sumFateProbThresh
                pc := if pseudoCount = 0 then (1 : ℚ) / 10 ^ 10
                  else pseudoCount }, rfl, ?_⟩
      rw [← hout]

/-- A consistent successful run (`mega = [A, B]` with `A ≠ B`, matching the
oracle's cluster list) produces exactly the scatter context: both obs columns
are the fate-map columns scattered over the cell-id subset. -/
theorem fate_bias_ok_shape (availableMap : List String) (source : String) (n : Nat)
    (cellIdT1 cellIdT2 : List Nat) (mapBackward : Bool) (method : String)
    (A B : String) (fpm : FPMOut) (sumFateProbThresh pseudoCount : ℚ)
    (out : BiasOut) (hAB : A ≠ B) (hfpm : fpm.megaClusterList = [A, B])
    (hrun : fate_bias availableMap source n cellIdT1 cellIdT2 mapBackward method
      [A, B] fpm sumFateProbThresh pseudoCount = .ok out) :
    out.biasCol = biasColumn (mkBiasCtx n
      (if mapBackward then cellIdT1 else cellIdT2) (fpmCol fpm 0) (fpmCol fpm 1)
      sumFateProbThresh
      (if pseudoCount = 0 then (1 : ℚ) / 10 ^ 10 else pseudoCount)) := by
  unfold fate_bias at hrun
  rw [if_neg (fun h => h rfl)] at hrun
  unfold fate_map at hrun
  by_cases hs : source ∉ availableMap
  · rw [if_pos hs] at hrun
    exact absurd hrun (by simp)
  · rw [if_neg hs] at hrun
    have hout := Except.ok.inj hrun
    have hcols : (fateMapWrites n (if mapBackward then cellIdT1 else cellIdT2)
        mapBackward method fpm).obsCols =
        [(A, scatterCol n (if mapBackward then cellIdT1 else cellIdT2) (fpmCol fpm 0)),
         (B, scatterCol n (if mapBackward then cellIdT1 else cellIdT2) (fpmCol fpm 1))] := by
      unfold fateMapWrites
      rw [if_neg (by rw [hfpm]; simp)]
      show (fpm.megaClusterList.enum.map _) = _
      rw [hfpm]
      rfl
    have h1 : lookupCol (fateMapWrites n (if mapBackward then cellIdT1 else cellIdT2)
        mapBackward method fpm).obsCols A =
        scatterCol n (if mapBackward then cellIdT1 else cellIdT2) (fpmCol fpm 0) := by
      rw [hcols]
      unfold lookupCol
      rw [List.find?_cons_of_pos _ (by simp)]
    have h2 : lookupCol (fateMapWrites n (if mapBackward then cellIdT1 else cellIdT2)
        mapBackward method fpm).obsCols B =
        scatterCol n (if mapBackward then cellIdT1 else cellIdT2) (fpmCol fpm 1) := by
      rw [hcols]
      unfold lookupCol
      rw [List.find?_cons_of_neg _ (by simpa using hAB),
        List.find?_cons_of_pos _ (by simp)]
    rw [← hout]
    show biasColumn _ = _
    unfold mkBiasCtx
    simp only [List.getD_cons_zero, List.getD_cons_succ]
    rw [h1, h2]

/-- Concrete evaluation helpers for the witness runs. -/
def fpmW5 : FPMOut :=
  { fateMap := [[1/2, 1/4]], megaClusterList := ["A", "B"], fateEntropy := [] }

def outW5 : BiasOut :=
  match fate_bias ["transition_map"] "transition_map" 1 [0] [] true "norm-sum"
      ["A", "B"] fpmW5 (1/20) 1 with
  | .ok r => r
  | .error _ => { biasCol := [], colKey := "", unsParams := none }

def fpmW6 : FPMOut :=
  { fateMap := [], megaClusterList := ["A", "B"], fateEntropy := [] }

def outW6 : BiasOut :=
  match fate_bias ["transition_map"] "transition_map" 1 [] [] true "norm-sum"
      ["A", "B"] fpmW6 (1/20) 1 with
  | .ok r => r
  | .error _ => { biasCol := [], colKey := "", unsParams := none }

def outW9 : BiasOut :=
  match fate_bias ["transition_map"] "transition_map" 2 [] [] true "norm-sum"
      ["A", "B"] fpmW6 (1/20) 1 with
  | .ok r => r
  | .error _ => { biasCol := [], colKey := "", unsParams := none }

def fpmW6c : FPMOut :=
  { fateMap := [[3/100, 2/100]], megaClusterList := ["A", "B"], fateEntropy := [] }

def outW6c : BiasOut :=
  match fate_bias ["transition_map"] "transition_map" 1 [0] [] true "norm-sum"
      ["A", "B"] fpmW6c (1/20) 0 with
  | .ok r => r
  | .error _ => { biasCol := [], colKey := "", unsParams := none }

/-- C5: for a `fate_bias` run over two distinct mega-clusters `A`, `B`
(resolved consistently by the probability-map oracle) on a duplicate-free
in-range cell subset, every retained cell `t` receives the bias value
`(P_t_A + c0) / (P_t_A + P_t_B + 2*c0)`, where `c0 = a * max(P)` with the
maximum over all cells of both probability columns and `a` the pseudo-count
argument, replaced by `1e-10` when the caller passes `0` (lines 495-518). -/
theorem fate_bias_formula (availableMap : List String) (source : String) (n : Nat)
    (cellIdT1 cellIdT2 : List Nat) (mapBackward : Bool) (method : String)
    (A B : String) (fpm : FPMOut) (sumFateProbThresh pseudoCount : ℚ)
    (out : BiasOut) (hAB : A ≠ B) (hfpm : fpm.megaClusterList = [A, B])
    (hn : (if mapBackward then cellIdT1 else cellIdT2).Nodup)
    (hb : ∀ i ∈ (if mapBackward then cellIdT1 else cellIdT2), i < n)
    (hrows : fpm.fateMap.length = (if mapBackward then cellIdT1 else cellIdT2).length)
    (hrun : fate_bias availableMap source n cellIdT1 cellIdT2 mapBackward method
      [A, B] fpm sumFateProbThresh pseudoCount = .ok out)
    (t : Nat) (ht : t < (if mapBackward then cellIdT1 else cellIdT2).length)
    (hretained : sumFateProbThresh < fpmEntry fpm t 0 + fpmEntry fpm t 1 +
      2 * ((if pseudoCount = 0 then (1 : ℚ) / 10 ^ 10 else pseudoCount) *
        listMax (fpmCol fpm 0 ++ fpmCol fpm 1))) :
    out.biasCol.getD ((if mapBackward then cellIdT1 else cellIdT2).getD t 0) 0 =
      (fpmEntry fpm t 0 +
        (if pseudoCount = 0 then (1 : ℚ) / 10 ^ 10 else pseudoCount) *
          listMax (fpmCol fpm 0 ++ fpmCol fpm 1)) /
      (fpmEntry fpm t 0 + fpmEntry fpm t 1 +
        2 * ((if pseudoCount = 0 then (1 : ℚ) / 10 ^ 10 else pseudoCount) *
          listMax (fpmCol fpm 0 ++ fpmCol fpm 1))) := by
  have hshape := fate_bias_ok_shape availableMap source n cellIdT1 cellIdT2
    mapBackward method A B fpm sumFateProbThresh pseudoCount out hAB hfpm hrun
  have htf : t < fpm.fateMap.length := by omega
  have hv0 : (fpmCol fpm 0).getD t 0 = fpmEntry fpm t 0 := fpmCol_getD fpm 0 t htf
  have hv1 : (fpmCol fpm 1).getD t 0 = fpmEntry fpm t 1 := fpmCol_getD fpm 1 t htf
  have hl0 : (fpmCol fpm 0).length = (if mapBackward then cellIdT1 else cellIdT2).length := by
    simpa [fpmCol] using hrows
  have hl1 : (fpmCol fpm 1).length = (if mapBackward then cellIdT1 else cellIdT2).length := by
    simpa [fpmCol] using hrows
  have hread := (biasColumn_read n (if mapBackward then cellIdT1 else cellIdT2)
    (fpmCol fpm 0) (fpmCol fpm 1) sumFateProbThresh
    (if pseudoCount = 0 then (1 : ℚ) / 10 ^ 10 else pseudoCount)
    hn hb hl0 hl1 t ht).1 (by rw [hv0, hv1]; exact hretained)
  rw [hshape, hread, hv0, hv1]

/-- C5 witness: a concrete run with `P = [[1/2, 1/4]]`, pseudo-count `1`,
threshold `1/20`; the single cell gets `(1/2 + 1/2) / (1/2 + 1/4 + 1) = 4/7`. -/
theorem fate_bias_formula_witness : outW5.biasCol.getD 0 0 = 4/7 := by
  have hlm : listMax (fpmCol fpmW5 0 ++ fpmCol fpmW5 1) = 1/2 := by
    show listMax [(1 : ℚ)/2, 1/4] = 1/2
    unfold listMax
    simp only [List.headD_cons, List.foldl_cons, List.foldl_nil, max_self]
    rw [max_eq_left (by norm_num)]
  have h := fate_bias_formula ["transition_map"] "transition_map" 1 [0] [] true
    "norm-sum" "A" "B" fpmW5 (1/20) 1 outW5 (by decide) rfl (by decide) (by decide)
    rfl rfl 0 (by decide)
    (by
      rw [if_neg (show ¬((1 : ℚ) = 0) by norm_num), hlm]
      show (1 : ℚ)/20 < 1/2 + 1/4 + 2 * (1 * (1/2))
      norm_num)
  rw [if_neg (show ¬((1 : ℚ) = 0) by norm_num), hlm] at h
  have h' : outW5.biasCol.getD 0 0 =
      ((1 : ℚ)/2 + 1 * (1/2)) / (1/2 + 1/4 + 2 * (1 * (1/2))) := h
  rw [h']
  norm_num

/-- C6 counterexample: the cut is NOT on the raw mass `P_A + P_B`.  With
`P = [[3/100, 2/100]]` and threshold `1/20`, the raw mass `5/100` is not
strictly above the threshold, so per the claim the cell should stay at `1/2`;
the code thresholds the pseudo-count-augmented total (line 513-514 operate on
the vectors already shifted by `add_count`), retains the cell, and writes
`(3/100 + 3e-12) / (5/100 + 6e-12) ≠ 1/2`. -/
theorem fate_bias_threshold_counterexample :
    ∃ out : BiasOut,
      fate_bias ["transition_map"] "transition_map" 1 [0] [] true "norm-sum"
        ["A", "B"] fpmW6c (1/20) 0 = .ok out ∧
      ¬((1 : ℚ)/20 < 3/100 + 2/100) ∧
      out.biasCol.getD 0 0 ≠ 1/2 := by
  have hrun : fate_bias ["transition_map"] "transition_map" 1 [0] [] true "norm-sum"
      ["A", "B"] fpmW6c (1/20) 0 = .ok outW6c := rfl
  refine ⟨outW6c, hrun, by norm_num, ?_⟩
  have hshape := fate_bias_ok_shape ["transition_map"] "transition_map" 1 [0] []
    true "norm-sum" "A" "B" fpmW6c (1/20) 0 outW6c (by decide) rfl hrun
  rw [if_pos rfl, if_pos (rfl : (0 : ℚ) = 0)] at hshape
  have hv0 : fpmCol fpmW6c 0 = [3/100] := rfl
  have hv1 : fpmCol fpmW6c 1 = [2/100] := rfl
  rw [hv0, hv1] at hshape
  have hlm : listMax ([(3 : ℚ)/100] ++ [2/100]) = 3/100 := by
    show listMax [(3 : ℚ)/100, 2/100] = 3/100
    unfold listMax
    simp only [List.headD_cons, List.foldl_cons, List.foldl_nil, max_self]
    rw [max_eq_left (by norm_num)]
  have hread := (biasColumn_read 1 [0] [3/100] [2/100] (1/20) (1/10^10)
    (by decide) (by decide) rfl rfl 0 (by decide)).1
    (by
      rw [hlm]
      show (1 : ℚ)/20 < 3/100 + 2/100 + 2 * (1/10^10 * (3/100))
      norm_num)
  rw [hlm] at hread
  have hread' : (biasColumn (mkBiasCtx 1 [0] [(3 : ℚ)/100] [2/100] (1/20)
      (1/10^10))).getD 0 0 =
      ((3 : ℚ)/100 + 1/10^10 * (3/100)) / (3/100 + 2/100 + 2 * (1/10^10 * (3/100))) :=
    hread
  rw [hshape, hread']
  norm_num

set_option maxRecDepth 4000 in
/-- C6 amended: the retention cut in `fate_bias` is on the pseudo-count
AUGMENTED mass: a cell `t` of the originating subset is written a computed
value iff `thresh < P_t_A + P_t_B + 2*c0` (with `c0 = a * max(P)` the additive
pseudo-count of line 509-511), otherwise it stays at the neutral `1/2`; every
cell outside the originating subset also stays at `1/2`. -/
theorem fate_bias_threshold_on_augmented_mass
    (availableMap : List String) (source : String) (n : Nat)
    (cellIdT1 cellIdT2 : List Nat) (mapBackward : Bool) (method : String)
    (A B : String) (fpm : FPMOut) (sumFateProbThresh pseudoCount : ℚ)
    (out : BiasOut) (hAB : A ≠ B) (hfpm : fpm.megaClusterList = [A, B])
    (hn : (if mapBackward then cellIdT1 else cellIdT2).Nodup)
    (hb : ∀ i ∈ (if mapBackward then cellIdT1 else cellIdT2), i < n)
    (hrows : fpm.fateMap.length = (if mapBackward then cellIdT1 else cellIdT2).length)
    (hrun : fate_bias availableMap source n cellIdT1 cellIdT2 mapBackward method
      [A, B] fpm sumFateProbThresh pseudoCount = .ok out) :
    (∀ t, t < (if mapBackward then cellIdT1 else cellIdT2).length →
      ¬(sumFateProbThresh < fpmEntry fpm t 0 + fpmEntry fpm t 1 +
        2 * ((if pseudoCount = 0 then (1 : ℚ) / 10 ^ 10 else pseudoCount) *
          listMax (fpmCol fpm 0 ++ fpmCol fpm 1))) →
      out.biasCol.getD ((if mapBackward then cellIdT1 else cellIdT2).getD t 0) 0 = 1/2) ∧
    (∀ x, x < n → x ∉ (if mapBackward then cellIdT1 else cellIdT2) →
      out.biasCol.getD x 0 = 1/2) ∧
    (∀ t, t < (if mapBackward then cellIdT1 else cellIdT2).length →
      sumFateProbThresh < fpmEntry fpm t 0 + fpmEntry fpm t 1 +
        2 * ((if pseudoCount = 0 then (1 : ℚ) / 10 ^ 10 else pseudoCount) *
          listMax (fpmCol fpm 0 ++ fpmCol fpm 1)) →
      out.biasCol.getD ((if mapBackward then cellIdT1 else cellIdT2).getD t 0) 0 =
        (fpmEntry fpm t 0 +
          (if pseudoCount = 0 then (1 : ℚ) / 10 ^ 10 else pseudoCount) *
            listMax (fpmCol fpm 0 ++ fpmCol fpm 1)) /
        (fpmEntry fpm t 0 + fpmEntry fpm t 1 +
          2 * ((if pseudoCount = 0 then (1 : ℚ) / 10 ^ 10 else pseudoCount) *
            listMax (fpmCol fpm 0 ++ fpmCol fpm 1)))) := by
  have hshape := fate_bias_ok_shape availableMap source n cellIdT1 cellIdT2
    mapBackward method A B fpm sumFateProbThresh pseudoCount out hAB hfpm hrun
  have hl0 : (fpmCol fpm 0).length = (if mapBackward then cellIdT1 else cellIdT2).length := by
    simpa [fpmCol] using hrows
  have hl1 : (fpmCol fpm 1).length = (if mapBackward then cellIdT1 else cellIdT2).length := by
    simpa [fpmCol] using hrows
  refine ⟨?_, ?_, ?_⟩
  · intro t ht hnot
    have htf : t < fpm.fateMap.length := by omega
    have hv0 : (fpmCol fpm 0).getD t 0 = fpmEntry fpm t 0 := fpmCol_getD fpm 0 t htf
    have hv1 : (fpmCol fpm 1).getD t 0 = fpmEntry fpm t 1 := fpmCol_getD fpm 1 t htf
    have hread := (biasColumn_read n (if mapBackward then cellIdT1 else cellIdT2)
      (fpmCol fpm 0) (fpmCol fpm 1) sumFateProbThresh
      (if pseudoCount = 0 then (1 : ℚ) / 10 ^ 10 else pseudoCount)
      hn hb hl0 hl1 t ht).2 (by rw [hv0, hv1]; exact hnot)
    rw [hshape, hread]
  · intro x hx hmem
    rw [hshape, biasColumn_outside n (if mapBackward then cellIdT1 else cellIdT2)
      (fpmCol fpm 0) (fpmCol fpm 1) sumFateProbThresh
      (if pseudoCount = 0 then (1 : ℚ) / 10 ^ 10 else pseudoCount) x hx hmem]
  · intro t ht hyes
    have htf : t < fpm.fateMap.length := by omega
    have hv0 : (fpmCol fpm 0).getD t 0 = fpmEntry fpm t 0 := fpmCol_getD fpm 0 t htf
    have hv1 : (fpmCol fpm 1).getD t 0 = fpmEntry fpm t 1 := fpmCol_getD fpm 1 t htf
    have hread := (biasColumn_read n (if mapBackward then cellIdT1 else cellIdT2)
      (fpmCol fpm 0) (fpmCol fpm 1) sumFateProbThresh
      (if pseudoCount = 0 then (1 : ℚ) / 10 ^ 10 else pseudoCount)
      hn hb hl0 hl1 t ht).1 (by rw [hv0, hv1]; exact hyes)
    rw [hshape, hread, hv0, hv1]

/-- C6 witness: a concrete run with an empty originating subset — the cell
outside the subset keeps the neutral `1/2`. -/
theorem fate_bias_threshold_on_augmented_mass_witness :
    outW6.biasCol.getD 0 0 = 1/2 :=
  (fate_bias_threshold_on_augmented_mass ["transition_map"] "transition_map" 1
    [] [] true "norm-sum" "A" "B" fpmW6 (1/20) 1 outW6 (by decide) rfl
    (by decide) (by decide) rfl rfl).2.1 0 (by decide) (by decide)

/-- C9: with a nonnegative threshold, every ratio `fate_vector_1 / tot_prob`
that `fate_bias` writes has a strictly positive denominator — `tot_prob`
passed the strict threshold test at that position — so no division by zero
occurs and every written entry is a genuine rational (`1/2` or such a ratio),
never a NaN/Inf. -/
theorem fate_bias_no_division_by_zero
    (availableMap : List String) (source : String) (n : Nat)
    (cellIdT1 cellIdT2 : List Nat) (mapBackward : Bool) (method : String)
    (mega : List String) (fpm : FPMOut) (sumFateProbThresh pseudoCount : ℚ)
    (out : BiasOut) (hthresh : 0 ≤ sumFateProbThresh)
    (hrun : fate_bias availableMap source n cellIdT1 cellIdT2 mapBackward method
      mega fpm sumFateProbThresh pseudoCount = .ok out) :
    ∃ c : BiasCtx, c.thresh = sumFateProbThresh ∧ out.biasCol = biasColumn c ∧
      (∀ t ∈ biasValidPos c, 0 < (biasTot c).getD t 0) ∧
      ∀ x ∈ out.biasCol, x = 1/2 ∨ ∃ t, t ∈ biasValidPos c ∧
        0 < (biasTot c).getD t 0 ∧ x = (biasW1 c).getD t 0 / (biasTot c).getD t 0 := by
  obtain ⟨c, hth, hcol⟩ := fate_bias_ok_ctx availableMap source n cellIdT1 cellIdT2
    mapBackward method mega fpm sumFateProbThresh pseudoCount out hrun
  have hmem := biasColumn_members c (by rw [hth]; exact hthresh)
  refine ⟨c, hth, hcol, hmem.1, ?_⟩
  intro x hx
  exact hmem.2 x (hcol ▸ hx)

/-- C9 witness: a concrete nonnegative-threshold run. -/
theorem fate_bias_no_division_by_zero_witness :
    (0 : ℚ) ≤ 1/20 ∧
    ∃ c : BiasCtx, c.thresh = 1/20 ∧ outW9.biasCol = biasColumn c ∧
      (∀ t ∈ biasValidPos c, 0 < (biasTot c).getD t 0) ∧
      ∀ x ∈ outW9.biasCol, x = 1/2 ∨ ∃ t, t ∈ biasValidPos c ∧
        0 < (biasTot c).getD t 0 ∧ x = (biasW1 c).getD t 0 / (biasTot c).getD t 0 :=
  ⟨by norm_num,
   fate_bias_no_division_by_zero ["transition_map"] "transition_map" 2 [] [] true
    "norm-sum" ["A", "B"] fpmW6 (1/20) 1 outW9 (by norm_num) rfl⟩

end Cospar
